import Mathlib

/-!
Verification of the memory-retention scheduler (`src/main.cpp`).

The C++ program is embedded shallowly:
* `Concept` mirrors the `Concept` class (floating-point `double` fields are
  modelled by real numbers, `int` day counters by integers);
* `MinHeap` mirrors the array-backed binary min-heap (`std::vector<HeapNode>`
  is a `List HeapNode`, indices accessed through `List.getD`);
* `MemoryGraph` mirrors the graph class; the `std::unordered_map` instances
  are modelled as association lists with replace-on-existing-key update,
  which is the observable behaviour of `operator[]` assignment;
* C++ exceptions (`throw std::runtime_error`) become `Except String` results.
-/

namespace MRLS

/-- One entry of the priority queue: mirrors `struct HeapNode`. -/
structure HeapNode where
  concept_id : String
  memory_strength : ℝ

instance : Inhabited HeapNode := ⟨⟨"", 0⟩⟩

/-- Strength stored at index `i` of the backing array (out-of-range reads give
the default node, which never happens in the program's executions). -/
noncomputable def sAt (l : List HeapNode) (i : Nat) : ℝ :=
  (l.getD i default).memory_strength

/-- Mirrors `std::swap(heap[i], heap[j])`. -/
def swapL (l : List HeapNode) (i j : Nat) : List HeapNode :=
  match l[i]?, l[j]? with
  | some a, some b => (l.set i b).set j a
  | _, _ => l

theorem length_swapL (l : List HeapNode) (i j : Nat) :
    (swapL l i j).length = l.length := by
  unfold swapL
  cases h1 : l[i]? <;> cases h2 : l[j]? <;> simp

theorem swapL_of_lt (l : List HeapNode) {i j : Nat} (hi : i < l.length)
    (hj : j < l.length) :
    swapL l i j = (l.set i (l.getD j default)).set j (l.getD i default) := by
  unfold swapL
  rw [List.getElem?_eq_getElem hi, List.getElem?_eq_getElem hj]
  simp [List.getD, List.getElem?_eq_getElem, hi, hj]

theorem sAt_set_self {l : List HeapNode} {i : Nat} (hi : i < l.length)
    (x : HeapNode) : sAt (l.set i x) i = x.memory_strength := by
  simp [sAt, List.getD, List.getElem?_set_self hi]

theorem sAt_set_ne {l : List HeapNode} {i t : Nat} (hne : t ≠ i)
    (x : HeapNode) : sAt (l.set i x) t = sAt l t := by
  simp [sAt, List.getD, List.getElem?_set_ne (by omega : i ≠ t)]

theorem sAt_swapL_fst {l : List HeapNode} {i j : Nat} (hi : i < l.length)
    (hj : j < l.length) (hne : i ≠ j) : sAt (swapL l i j) i = sAt l j := by
  rw [swapL_of_lt l hi hj, sAt_set_ne hne, sAt_set_self hi]
  rfl

theorem sAt_swapL_snd {l : List HeapNode} {i j : Nat} (hi : i < l.length)
    (hj : j < l.length) : sAt (swapL l i j) j = sAt l i := by
  by_cases heq : i = j
  · subst heq
    unfold swapL
    rw [List.getElem?_eq_getElem hi]
    simp [sAt, List.getD, List.getElem?_set_self hi, List.getElem?_eq_getElem hi]
  · rw [swapL_of_lt l hi hj, sAt_set_self (by simpa using hj)]
    rfl

theorem sAt_swapL_other {l : List HeapNode} {i j t : Nat} (h1 : t ≠ i)
    (h2 : t ≠ j) : sAt (swapL l i j) t = sAt l t := by
  unfold swapL
  cases hx : l[i]? <;> cases hy : l[j]? <;>
    simp [sAt, List.getD, List.getElem?_set_ne (by omega : j ≠ t),
      List.getElem?_set_ne (by omega : i ≠ t)]

/-! Generic permutation facts about `List.set` used to reason about swaps. -/

theorem set_perm_cons_eraseIdx {α : Type _} :
    ∀ (l : List α) (i : Nat), i < l.length →
      ∀ b : α, (l.set i b).Perm (b :: l.eraseIdx i)
  | [], i, hi, _ => absurd hi (by simp)
  | x :: xs, 0, _, b => by simp
  | x :: xs, i + 1, hi, b => by
    simp only [List.set_cons_succ, List.eraseIdx_cons_succ]
    exact ((set_perm_cons_eraseIdx xs i (by simpa using hi) b).cons x).trans
      (List.Perm.swap b x _)

theorem self_perm_cons_eraseIdx {α : Type _} :
    ∀ (l : List α) (i : Nat), i < l.length →
      ∀ d : α, l.Perm (l.getD i d :: l.eraseIdx i)
  | [], i, hi, _ => absurd hi (by simp)
  | x :: xs, 0, _, d => by simp
  | x :: xs, i + 1, hi, d => by
    simp only [List.getD_cons_succ, List.eraseIdx_cons_succ]
    exact ((self_perm_cons_eraseIdx xs i (by simpa using hi) d).cons x).trans
      (List.Perm.swap _ x _)

theorem set_getD_self {α : Type _} :
    ∀ (l : List α) (i : Nat), i < l.length → ∀ d : α, l.set i (l.getD i d) = l
  | [], i, hi, _ => absurd hi (by simp)
  | x :: xs, 0, _, d => by simp
  | x :: xs, i + 1, hi, d => by
    rw [List.getD_cons_succ, List.set_cons_succ,
      set_getD_self xs i (by simpa using hi) d]

theorem swapL_cons_succ (x : HeapNode) (xs : List HeapNode) (i j : Nat) :
    swapL (x :: xs) (i + 1) (j + 1) = x :: swapL xs i j := by
  unfold swapL
  cases h1 : xs[i]? <;> cases h2 : xs[j]? <;> simp [h1, h2]

theorem swapL_perm_aux :
    ∀ (l : List HeapNode) (i j : Nat), i < j → j < l.length →
      (swapL l i j).Perm l
  | [], _, _, _, hj => absurd hj (by simp)
  | x :: xs, 0, j + 1, _, hj => by
    have hj' : j < xs.length := by simpa using hj
    rw [swapL_of_lt _ (by simp) hj]
    simp only [List.getD_cons_succ, List.getD_cons_zero, List.set_cons_zero,
      List.set_cons_succ]
    exact ((set_perm_cons_eraseIdx xs j hj' x).cons _).trans
      ((List.Perm.swap x _ _).trans
        ((self_perm_cons_eraseIdx xs j hj' default).cons x).symm)
  | x :: xs, i + 1, j + 1, hij, hj => by
    rw [swapL_cons_succ]
    exact (swapL_perm_aux xs i j (by omega) (by simpa using hj)).cons x

theorem swapL_comm (l : List HeapNode) {i j : Nat} (hne : i ≠ j) :
    swapL l i j = swapL l j i := by
  unfold swapL
  cases h1 : l[i]? <;> cases h2 : l[j]? <;> simp
  exact List.set_comm _ _ _ (by omega)

theorem swapL_perm (l : List HeapNode) {i j : Nat} (hi : i < l.length)
    (hj : j < l.length) : (swapL l i j).Perm l := by
  rcases Nat.lt_trichotomy i j with h | h | h
  · exact swapL_perm_aux l i j h hj
  · subst h
    rw [swapL_of_lt l hi hi, List.set_set, set_getD_self l i hi]
  · rw [swapL_comm l (by omega)]
    exact swapL_perm_aux l j i h hi

/-- Mirrors `MinHeap::heapifyUp`: sift the element at `index` up while it is smaller
than its parent `(index - 1) / 2`. -/
noncomputable def heapifyUp (l : List HeapNode) : Nat → List HeapNode
  | 0 => l
  | i + 1 =>
    if sAt l (i / 2) > sAt l (i + 1) then
      heapifyUp (swapL l (i / 2) (i + 1)) (i / 2)
    else l
termination_by i => i
decreasing_by omega

/-- Mirrors `MinHeap::heapifyDown`'s choice of the smallest of `index`, `left`,
`right` (the two `if` statements of the C++ body). -/
noncomputable def minIdx (l : List HeapNode) (i : Nat) : Nat :=
  let m1 := if 2 * i + 1 < l.length ∧ sAt l (2 * i + 1) < sAt l i
    then 2 * i + 1 else i
  if 2 * i + 2 < l.length ∧ sAt l (2 * i + 2) < sAt l m1
    then 2 * i + 2 else m1

theorem minIdx_ge (l : List HeapNode) (i : Nat) :
    minIdx l i = i ∨ (i < minIdx l i ∧ minIdx l i < l.length) := by
  unfold minIdx
  dsimp only
  split
  · rename_i h1
    split
    · rename_i h2
      exact Or.inr ⟨by omega, h2.1⟩
    · exact Or.inr ⟨by omega, h1.1⟩
  · split
    · rename_i h2
      exact Or.inr ⟨by omega, h2.1⟩
    · exact Or.inl rfl

/-- Mirrors `MinHeap::heapifyDown`: swap with the smallest child and recurse while the
min-heap property is violated at `index`. -/
noncomputable def heapifyDown (l : List HeapNode) (i : Nat) : List HeapNode :=
  if h : minIdx l i = i then l
  else heapifyDown (swapL l i (minIdx l i)) (minIdx l i)
termination_by l.length - i
decreasing_by
  rcases minIdx_ge l i with h' | h'
  · exact absurd h' h
  · rw [length_swapL]
    omega

theorem length_heapifyUp : ∀ (i : Nat) (l : List HeapNode),
    (heapifyUp l i).length = l.length
  | 0, l => by rw [heapifyUp]
  | i + 1, l => by
    rw [heapifyUp]
    split
    · rw [length_heapifyUp (i / 2) _, length_swapL]
    · rfl
termination_by i => i
decreasing_by omega

theorem heapifyUp_perm : ∀ (i : Nat) (l : List HeapNode), i < l.length →
    (heapifyUp l i).Perm l
  | 0, l, _ => by rw [heapifyUp]
  | i + 1, l, hi => by
    rw [heapifyUp]
    split
    · refine (heapifyUp_perm (i / 2) _ ?_).trans
        (swapL_perm l (by omega) hi)
      rw [length_swapL]; omega
    · exact List.Perm.refl l
termination_by i => i
decreasing_by omega

theorem length_heapifyDown (l : List HeapNode) (i : Nat) :
    (heapifyDown l i).length = l.length := by
  rw [heapifyDown]
  split
  · rfl
  · rw [length_heapifyDown _ _, length_swapL]
termination_by l.length - i
decreasing_by
  rcases minIdx_ge l i with h' | h'
  · simp_all
  · rw [length_swapL]; omega

theorem heapifyDown_perm (l : List HeapNode) (i : Nat) :
    (heapifyDown l i).Perm l := by
  rw [heapifyDown]
  split
  · exact List.Perm.refl l
  · rcases minIdx_ge l i with h' | h'
    · simp_all
    · refine (heapifyDown_perm _ _).trans (swapL_perm l (by omega) (by omega))
termination_by l.length - i
decreasing_by
  rcases minIdx_ge l i with h'' | h''
  · simp_all
  · rw [length_swapL]; omega

/-- Parent index in the array encoding of the binary heap. -/
def par (j : Nat) : Nat := (j - 1) / 2

/-- The binary min-heap property of the backing array: every non-root entry
is at least its parent. -/
def IsMinHeap (l : List HeapNode) : Prop :=
  ∀ j, 0 < j → j < l.length → sAt l (par j) ≤ sAt l j

/-- Case analysis of `minIdx`: either `i` already holds the smallest strength
among itself and its children, or `minIdx` is a child of `i` holding a
strictly smaller strength, minimal among the children. -/
theorem minIdx_spec (l : List HeapNode) (i : Nat) :
    (minIdx l i = i ∧
      ∀ c, c < l.length → par c = i → 0 < c → sAt l i ≤ sAt l c) ∨
    (i < minIdx l i ∧ minIdx l i < l.length ∧ par (minIdx l i) = i ∧
      sAt l (minIdx l i) < sAt l i ∧
      ∀ c, c < l.length → par c = i → 0 < c → sAt l (minIdx l i) ≤ sAt l c) := by
  unfold minIdx par
  dsimp only
  split
  · rename_i h1
    split
    · rename_i h2
      refine Or.inr ⟨by omega, h2.1, by omega, lt_trans h2.2 h1.2, ?_⟩
      intro c hc hpc hc0
      have hcc : c = 2 * i + 1 ∨ c = 2 * i + 2 := by omega
      rcases hcc with rfl | rfl
      · exact le_of_lt h2.2
      · exact le_refl _
    · rename_i h2
      refine Or.inr ⟨by omega, h1.1, by omega, h1.2, ?_⟩
      intro c hc hpc hc0
      have hcc : c = 2 * i + 1 ∨ c = 2 * i + 2 := by omega
      rcases hcc with rfl | rfl
      · exact le_refl _
      · exact le_of_not_lt (fun hlt => h2 ⟨hc, hlt⟩)
  · rename_i h1
    split
    · rename_i h2
      refine Or.inr ⟨by omega, h2.1, by omega, h2.2, ?_⟩
      intro c hc hpc hc0
      have hcc : c = 2 * i + 1 ∨ c = 2 * i + 2 := by omega
      rcases hcc with rfl | rfl
      · exact le_of_lt (lt_of_lt_of_le h2.2
          (le_of_not_lt (fun hlt => h1 ⟨hc, hlt⟩)))
      · exact le_refl _
    · rename_i h2
      refine Or.inl ⟨rfl, ?_⟩
      intro c hc hpc hc0
      have hcc : c = 2 * i + 1 ∨ c = 2 * i + 2 := by omega
      rcases hcc with rfl | rfl
      · exact le_of_not_lt (fun hlt => h1 ⟨hc, hlt⟩)
      · exact le_of_not_lt (fun hlt => h2 ⟨hc, hlt⟩)

/-- Main correctness lemma for `heapifyDown`, parametrised by a lower cutoff
`K` of active parent indices (so it serves both `updateKey`/`extractMin`
(`K = 0`) and Floyd's bottom-up `rebuild` loop (`K = i`)).  If every active
edge except those leaving `i` holds, and the parent of `i` (when active) is
at most the children of `i`, then after `heapifyDown l i` every active edge
holds. -/
theorem heapifyDown_main (K : Nat) (l : List HeapNode) (i : Nat) (hKi : K ≤ i)
    (hyp1 : ∀ j, 0 < j → j < l.length → K ≤ par j → par j ≠ i →
      sAt l (par j) ≤ sAt l j)
    (hyp2 : 0 < i → K ≤ par i → ∀ c, c < l.length → par c = i →
      sAt l (par i) ≤ sAt l c) :
    ∀ j, 0 < j → j < (heapifyDown l i).length → K ≤ par j →
      sAt (heapifyDown l i) (par j) ≤ sAt (heapifyDown l i) j := by
  rw [heapifyDown]
  split
  · rename_i hm
    rcases minIdx_spec l i with ⟨_, hchild⟩ | ⟨hlt, _, _, _, _⟩
    · intro j hj0 hjlen hK
      by_cases hpj : par j = i
      · rw [hpj]
        exact hchild j hjlen hpj hj0
      · exact hyp1 j hj0 hjlen hK hpj
    · omega
  · rename_i hm
    rcases minIdx_spec l i with ⟨heq, _⟩ | ⟨hlt, hmlen, hpm, hsm, hchild⟩
    · exact absurd heq hm
    · have hilen : i < l.length := lt_trans hlt hmlen
      have hne : i ≠ minIdx l i := by omega
      apply heapifyDown_main K (swapL l i (minIdx l i)) (minIdx l i)
        (by omega)
      · -- new hyp1
        intro j hj0 hjlen hK hpj
        rw [length_swapL] at hjlen
        by_cases hji : j = i
        · rw [hji] at hj0 hK hpj ⊢
          have hpi : par i = (i - 1) / 2 := rfl
          rw [sAt_swapL_other (by omega : par i ≠ i)
              (by omega : par i ≠ minIdx l i),
            sAt_swapL_fst hilen hmlen hne]
          exact hyp2 hj0 hK (minIdx l i) hmlen hpm
        · by_cases hjm : j = minIdx l i
          · subst hjm
            rw [hpm, sAt_swapL_fst hilen hmlen hne,
              sAt_swapL_snd hilen hmlen]
            exact le_of_lt hsm
          · by_cases hpji : par j = i
            · rw [hpji, sAt_swapL_fst hilen hmlen hne,
                sAt_swapL_other hji hjm]
              exact hchild j hjlen hpji hj0
            · rw [sAt_swapL_other hpji hpj, sAt_swapL_other hji hjm]
              exact hyp1 j hj0 hjlen hK hpji
      · -- new hyp2
        intro _ hKpm c hc hpc
        rw [length_swapL] at hc
        have hpar : par c = (c - 1) / 2 := rfl
        rw [hpm, sAt_swapL_fst hilen hmlen hne,
          sAt_swapL_other (by omega : c ≠ i) (by omega : c ≠ minIdx l i)]
        have h := hyp1 c (by omega) hc (by omega) (by omega)
        rw [hpc] at h
        exact h
termination_by l.length - i
decreasing_by
  rw [length_swapL]
  omega

/-- Main correctness lemma for `heapifyUp`: if every edge except the one
entering `i` holds, and the parent of `i` is at most every child of `i`,
then after `heapifyUp l i` the array is a min-heap. -/
theorem heapifyUp_main : ∀ (i : Nat) (l : List HeapNode), i < l.length →
    (∀ j, 0 < j → j < l.length → j ≠ i → sAt l (par j) ≤ sAt l j) →
    (0 < i → ∀ c, c < l.length → par c = i → sAt l (par i) ≤ sAt l c) →
    IsMinHeap (heapifyUp l i)
  | 0, l, _, hyp1, _ => by
    rw [heapifyUp]
    intro j hj0 hjlen
    exact hyp1 j hj0 hjlen (by omega)
  | i + 1, l, hi, hyp1, hyp2 => by
    rw [heapifyUp]
    have hp : par (i + 1) = i / 2 := rfl
    have hplt : i / 2 < i + 1 := by omega
    have hplen : i / 2 < l.length := by omega
    have hne : i / 2 ≠ i + 1 := by omega
    split
    · rename_i hgt
      apply heapifyUp_main (i / 2) _ (by rw [length_swapL]; exact hplen)
      · -- new hyp1
        intro j hj0 hjlen hjp
        rw [length_swapL] at hjlen
        by_cases hji : j = i + 1
        · rw [hji, hp, sAt_swapL_fst hplen hi hne, sAt_swapL_snd hplen hi]
          exact le_of_lt hgt
        · by_cases hpjp : par j = i / 2
          · rw [hpjp, sAt_swapL_fst hplen hi hne,
              sAt_swapL_other hjp hji]
            exact le_of_lt (lt_of_lt_of_le hgt
              (hpjp ▸ hyp1 j hj0 hjlen hji))
          · by_cases hpjc : par j = i + 1
            · rw [hpjc, sAt_swapL_snd hplen hi, sAt_swapL_other hjp hji]
              exact hp ▸ hyp2 (by omega) j hjlen hpjc
            · rw [sAt_swapL_other hpjp hpjc, sAt_swapL_other hjp hji]
              exact hyp1 j hj0 hjlen hji
      · -- new hyp2
        intro hp0 c hc hpc
        rw [length_swapL] at hc
        have hpp : par (i / 2) = (i / 2 - 1) / 2 := rfl
        rw [sAt_swapL_other (by omega : par (i / 2) ≠ i / 2)
          (by omega : par (i / 2) ≠ i + 1)]
        by_cases hci : c = i + 1
        · rw [hci, sAt_swapL_snd hplen hi]
          exact hyp1 (i / 2) hp0 hplen hne
        · have hparc : par c = (c - 1) / 2 := rfl
          rw [sAt_swapL_other (by omega : c ≠ i / 2) hci]
          exact le_trans (hyp1 (i / 2) hp0 hplen hne)
            (hpc ▸ hyp1 c (by omega) hc hci)
    · rename_i hle
      intro j hj0 hjlen
      by_cases hji : j = i + 1
      · rw [hji, hp]
        exact le_of_not_lt hle
      · exact hyp1 j hj0 hjlen hji
termination_by i => i
decreasing_by omega

/-- The priority queue: mirrors `class MinHeap` (its backing
`std::vector<HeapNode> heap`). -/
structure MinHeap where
  heap : List HeapNode

/-- Mirrors `MinHeap::insert`: push back and sift up from the last index. -/
noncomputable def MinHeap.insert (h : MinHeap) (concept_id : String)
    (memory_strength : ℝ) : MinHeap :=
  ⟨heapifyUp (h.heap ++ [HeapNode.mk concept_id memory_strength])
    ((h.heap ++ [HeapNode.mk concept_id memory_strength]).length - 1)⟩

/-- Mirrors `MinHeap::extractMin`: throws "Heap is empty" on the empty heap;
otherwise removes the root, moves the last element to the root, pops the
back and (if nonempty) sifts down from the root. -/
noncomputable def MinHeap.extractMin (h : MinHeap) :
    Except String (String × MinHeap) :=
  match h.heap with
  | [] => Except.error "Heap is empty"
  | x :: rest =>
    Except.ok (x.concept_id,
      MinHeap.mk
        (if (((x :: rest).set 0 ((x :: rest).getD rest.length default)).dropLast).isEmpty
         then ((x :: rest).set 0 ((x :: rest).getD rest.length default)).dropLast
         else heapifyDown
           (((x :: rest).set 0 ((x :: rest).getD rest.length default)).dropLast) 0))

/-- Mirrors `MinHeap::peekMin`: throws "Heap is empty" on the empty heap, else the
root's id. -/
def MinHeap.peekMin (h : MinHeap) : Except String String :=
  match h.heap with
  | [] => Except.error "Heap is empty"
  | x :: _ => Except.ok x.concept_id

/-- Mirrors `MinHeap::isEmpty`. -/
def MinHeap.isEmpty (h : MinHeap) : Bool := h.heap.isEmpty

/-- Mirrors `MinHeap::size`. -/
def MinHeap.size (h : MinHeap) : Nat := h.heap.length

/-- The linear scan of `MinHeap::updateKey` locating the first entry whose
`concept_id` matches. -/
def findIdxScan : List HeapNode → String → Option Nat
  | [], _ => none
  | nd :: rest, k =>
    if nd.concept_id = k then some 0
    else (findIdxScan rest k).map (· + 1)

/-- Mirrors `MinHeap::updateKey`: linear scan for the id; if found overwrite its
strength, sifting up on a decrease and down otherwise; no-op if absent. -/
noncomputable def MinHeap.updateKey (h : MinHeap) (concept_id : String)
    (new_strength : ℝ) : MinHeap :=
  match findIdxScan h.heap concept_id with
  | none => h
  | some i =>
    if new_strength < sAt h.heap i then
      ⟨heapifyUp (h.heap.set i ⟨concept_id, new_strength⟩) i⟩
    else
      ⟨heapifyDown (h.heap.set i ⟨concept_id, new_strength⟩) i⟩

/-- The `for (int i = heap.size()/2 - 1; i >= 0; i--) heapifyDown(i);`
loop of `MinHeap::rebuild`, running from index `i` down to `0`. -/
noncomputable def buildFrom : List HeapNode → Nat → List HeapNode
  | l, 0 => heapifyDown l 0
  | l, i + 1 => buildFrom (heapifyDown l (i + 1)) i

/-- Mirrors `MinHeap::rebuild`: discard the contents and heapify the replacement
entries bottom-up (the loop body never runs when `size/2 - 1 < 0`). -/
noncomputable def MinHeap.rebuild (data : List (String × ℝ)) : MinHeap :=
  if (data.map (fun p => HeapNode.mk p.1 p.2)).length / 2 = 0 then
    ⟨data.map (fun p => HeapNode.mk p.1 p.2)⟩
  else
    ⟨buildFrom (data.map (fun p => HeapNode.mk p.1 p.2))
      ((data.map (fun p => HeapNode.mk p.1 p.2)).length / 2 - 1)⟩

theorem findIdxScan_spec : ∀ (l : List HeapNode) (k : String) (i : Nat),
    findIdxScan l k = some i →
    i < l.length ∧ (l.getD i default).concept_id = k
  | [], k, i, h => by simp [findIdxScan] at h
  | nd :: rest, k, i, h => by
    rw [findIdxScan] at h
    split at h
    · rename_i heq
      cases h
      exact ⟨by simp, heq⟩
    · rcases Option.map_eq_some'.mp h with ⟨i', hi', rfl⟩
      have := findIdxScan_spec rest k i' hi'
      exact ⟨by simp; omega, this.2⟩

theorem findIdxScan_mem : ∀ (l : List HeapNode) (k : String),
    k ∈ l.map HeapNode.concept_id → (findIdxScan l k).isSome
  | [], k, h => by simp at h
  | nd :: rest, k, h => by
    rw [findIdxScan]
    split
    · simp
    · rename_i hne
      simp only [List.map_cons, List.mem_cons] at h
      rcases h with h | h
      · exact absurd h.symm hne
      · have := findIdxScan_mem rest k h
        cases hfe : findIdxScan rest k with
        | none => rw [hfe] at this; simp at this
        | some i => simp [hfe]

theorem sAt_append_lt {l : List HeapNode} (l₂ : List HeapNode) {t : Nat}
    (ht : t < l.length) : sAt (l ++ l₂) t = sAt l t := by
  simp [sAt, List.getD, List.getElem?_append_left ht]

theorem sAt_dropLast {l : List HeapNode} {t : Nat} (ht : t < l.length - 1) :
    sAt l.dropLast t = sAt l t := by
  have h1 : t < l.dropLast.length := by rw [List.length_dropLast]; omega
  have h2 : t < l.length := by omega
  unfold sAt
  rw [List.getD_eq_getElem?_getD, List.getD_eq_getElem?_getD,
    List.getElem?_eq_getElem h1, List.getElem?_eq_getElem h2]
  simp [List.getElem_dropLast]

/-- In a min-heap the root is a global minimum. -/
theorem isMinHeap_root_le {l : List HeapNode} (hl : IsMinHeap l) :
    ∀ j, j < l.length → sAt l 0 ≤ sAt l j := by
  intro j
  induction j using Nat.strong_induction_on with
  | _ j ih =>
    intro hj
    rcases Nat.eq_zero_or_pos j with rfl | hj0
    · exact le_refl _
    · have hpar : par j = (j - 1) / 2 := rfl
      exact le_trans (ih (par j) (by omega) (by omega)) (hl j hj0 hj)

theorem insert_isMinHeap (h : MinHeap) (hh : IsMinHeap h.heap)
    (concept_id : String) (memory_strength : ℝ) :
    IsMinHeap (h.insert concept_id memory_strength).heap := by
  unfold MinHeap.insert
  have hlen : (h.heap ++ [HeapNode.mk concept_id memory_strength]).length
      = h.heap.length + 1 := by simp
  apply heapifyUp_main
  · omega
  · intro j hj0 hjlen hjne
    rw [hlen] at hjne hjlen
    have hpj : par j = (j - 1) / 2 := rfl
    rw [sAt_append_lt _ (by omega), sAt_append_lt _ (by omega)]
    exact hh j hj0 (by omega)
  · intro hn0 c hc hpc
    rw [hlen] at hn0 hc hpc ⊢
    have hpc' : par c = (c - 1) / 2 := rfl
    omega

theorem extractMin_isMinHeap (h : MinHeap) (hh : IsMinHeap h.heap)
    (x : String) (h' : MinHeap) (he : h.extractMin = Except.ok (x, h')) :
    IsMinHeap h'.heap := by
  unfold MinHeap.extractMin at he
  cases hl : h.heap with
  | nil => rw [hl] at he; exact absurd he (by simp)
  | cons y rest =>
    rw [hl] at he
    simp only [Except.ok.injEq, Prod.mk.injEq] at he
    obtain ⟨hx, hh'⟩ := he
    rw [← hh']
    show IsMinHeap (if _ then _ else _)
    split
    · rename_i hemp
      rw [List.isEmpty_iff] at hemp
      rw [hemp]
      intro j hj0 hjlen
      simp at hjlen
    · rename_i hne
      set l₀ := ((y :: rest).set 0 ((y :: rest).getD rest.length default)).dropLast
        with hl₀
      have hlen₀ : l₀.length = rest.length := by
        rw [hl₀, List.length_dropLast]
        simp
      intro j hj0 hjlen
      refine heapifyDown_main 0 l₀ 0 (le_refl 0) ?_ ?_ j hj0 hjlen (by omega)
      · intro j hj0 hjlen hK hpj
        have hpj' : par j = (j - 1) / 2 := rfl
        rw [hlen₀] at hjlen
        have hrw : ∀ t, 0 < t → t < rest.length →
            sAt l₀ t = sAt (y :: rest) t := by
          intro t ht0 htl
          rw [hl₀, sAt_dropLast (by simp; omega),
            sAt_set_ne (by omega) _]
        rw [hrw j hj0 hjlen, hrw (par j) (by omega) (by omega)]
        rw [hl] at hh
        exact hh j hj0 (by simp; omega)
      · intro h0; exact absurd h0 (by omega)

theorem updateKey_isMinHeap (h : MinHeap) (hh : IsMinHeap h.heap)
    (concept_id : String) (new_strength : ℝ) :
    IsMinHeap (h.updateKey concept_id new_strength).heap := by
  unfold MinHeap.updateKey
  split
  · exact hh
  · rename_i i hf
    obtain ⟨hilen, -⟩ := findIdxScan_spec h.heap concept_id i hf
    have hslen : (h.heap.set i (HeapNode.mk concept_id new_strength)).length
        = h.heap.length := by simp
    split
    · rename_i hdec
      -- strength decreased: sift up from i
      apply heapifyUp_main
      · omega
      · intro j hj0 hjlen hjne
        rw [hslen] at hjlen
        rw [sAt_set_ne hjne]
        by_cases hpj : par j = i
        · rw [hpj, sAt_set_self hilen]
          exact le_trans (le_of_lt hdec) (hpj ▸ hh j hj0 hjlen)
        · rw [sAt_set_ne hpj]
          exact hh j hj0 hjlen
      · intro hi0 c hc hpc
        rw [hslen] at hc
        have hpar : par i = (i - 1) / 2 := rfl
        have hpc' : par c = (c - 1) / 2 := rfl
        rw [sAt_set_ne (by omega : par i ≠ i), sAt_set_ne (by omega : c ≠ i)]
        exact le_trans (hh i hi0 hilen) (hpc ▸ hh c (by omega) hc)
    · rename_i hinc
      -- strength did not decrease: sift down from i
      intro j hj0 hjlen
      refine heapifyDown_main 0 _ i (by omega) ?_ ?_ j hj0 hjlen (by omega)
      · intro j hj0 hjlen hK hpj
        rw [hslen] at hjlen
        rw [sAt_set_ne hpj]
        by_cases hji : j = i
        · rw [hji, sAt_set_self hilen]
          exact le_trans (hji ▸ hh j hj0 hjlen) (le_of_not_lt hinc)
        · rw [sAt_set_ne hji]
          exact hh j hj0 hjlen
      · intro hi0 hK c hc hpc
        rw [hslen] at hc
        have hpar : par i = (i - 1) / 2 := rfl
        have hpc' : par c = (c - 1) / 2 := rfl
        rw [sAt_set_ne (by omega : par i ≠ i), sAt_set_ne (by omega : c ≠ i)]
        exact le_trans (hh i hi0 hilen) (hpc ▸ hh c (by omega) hc)

theorem buildFrom_main : ∀ (i : Nat) (l : List HeapNode),
    (∀ j, 0 < j → j < l.length → i + 1 ≤ par j → sAt l (par j) ≤ sAt l j) →
    IsMinHeap (buildFrom l i)
  | 0, l, hyp => by
    rw [buildFrom]
    intro j hj0 hjlen
    refine heapifyDown_main 0 l 0 (le_refl 0) ?_ ?_ j hj0 hjlen (by omega)
    · intro j' hj0' hjlen' _ hpj'
      exact hyp j' hj0' hjlen' (by omega)
    · intro h0; exact absurd h0 (by omega)
  | i + 1, l, hyp => by
    rw [buildFrom]
    apply buildFrom_main i
    intro j hj0 hjlen hpj
    rw [length_heapifyDown] at hjlen
    have hpar : par (i + 1) = i / 2 := rfl
    refine heapifyDown_main (i + 1) l (i + 1) (le_refl _) ?_ ?_ j hj0
      (by rw [length_heapifyDown]; exact hjlen) (by omega)
    · intro j' hj0' hjlen' hK' hpj'
      exact hyp j' hj0' hjlen' (by omega)
    · intro _ hK'
      omega

theorem rebuild_isMinHeap (data : List (String × ℝ)) :
    IsMinHeap (MinHeap.rebuild data).heap := by
  unfold MinHeap.rebuild
  split
  · rename_i hsmall
    intro j hj0 hjlen
    simp only at hjlen
    omega
  · rename_i hbig
    apply buildFrom_main
    intro j hj0 hjlen hpj
    have hpar : par j = (j - 1) / 2 := rfl
    omega

theorem length_insert (h : MinHeap) (k : String) (s : ℝ) :
    (h.insert k s).heap.length = h.heap.length + 1 := by
  unfold MinHeap.insert
  rw [length_heapifyUp]
  simp

theorem length_updateKey (h : MinHeap) (k : String) (s : ℝ) :
    (h.updateKey k s).heap.length = h.heap.length := by
  unfold MinHeap.updateKey
  split
  · rfl
  · split
    · rw [length_heapifyUp]
      simp
    · rw [length_heapifyDown]
      simp

theorem length_buildFrom : ∀ (i : Nat) (l : List HeapNode),
    (buildFrom l i).length = l.length
  | 0, l => by rw [buildFrom, length_heapifyDown]
  | i + 1, l => by
    rw [buildFrom, length_buildFrom i, length_heapifyDown]

theorem length_rebuild (data : List (String × ℝ)) :
    (MinHeap.rebuild data).heap.length = data.length := by
  unfold MinHeap.rebuild
  split
  · simp
  · rw [length_buildFrom]
    simp

theorem buildFrom_perm : ∀ (i : Nat) (l : List HeapNode),
    (buildFrom l i).Perm l
  | 0, l => by
    rw [buildFrom]
    exact heapifyDown_perm l 0
  | i + 1, l => by
    rw [buildFrom]
    exact (buildFrom_perm i _).trans (heapifyDown_perm l (i + 1))

theorem rebuild_perm (data : List (String × ℝ)) :
    (MinHeap.rebuild data).heap.Perm
      (data.map (fun p => HeapNode.mk p.1 p.2)) := by
  unfold MinHeap.rebuild
  split
  · exact List.Perm.refl _
  · exact buildFrom_perm _ _

theorem insert_perm (h : MinHeap) (k : String) (s : ℝ) :
    (h.insert k s).heap.Perm (h.heap ++ [HeapNode.mk k s]) := by
  unfold MinHeap.insert
  apply heapifyUp_perm
  simp

theorem updateKey_none (h : MinHeap) (k : String) (s : ℝ)
    (hf : findIdxScan h.heap k = none) : h.updateKey k s = h := by
  unfold MinHeap.updateKey
  rw [hf]

theorem updateKey_perm (h : MinHeap) (k : String) (s : ℝ) (i : Nat)
    (hf : findIdxScan h.heap k = some i) :
    (h.updateKey k s).heap.Perm (h.heap.set i (HeapNode.mk k s)) := by
  unfold MinHeap.updateKey
  rw [hf]
  dsimp only
  split
  · exact heapifyUp_perm _ _ (by
      rw [List.length_set]
      exact (findIdxScan_spec _ _ _ hf).1)
  · exact heapifyDown_perm _ _

/-- Mirrors `class Concept`. -/
structure Concept where
  name : String
  id : String
  category : String
  initial_weight : ℝ
  memory_strength : ℝ
  last_revised_day : ℤ
  prerequisites : List String

/-- The `Concept` constructor: stores its arguments verbatim and initialises
`memory_strength` to `initial_weight`. -/
def Concept.make (name id category : String) (initial_weight : ℝ)
    (last_revised_day : ℤ) (prereqs : List String) : Concept :=
  ⟨name, id, category, initial_weight, initial_weight, last_revised_day,
    prereqs⟩

/-- Mirrors `Concept::calculateMemory`: exponential decay of the baseline weight over
the days elapsed since the last revision, clamped into [0.1, 1.0].
Pure: it reads the fields and mutates nothing. -/
noncomputable def Concept.calculateMemory (c : Concept) (current_day : ℤ)
    (lambda : ℝ) : ℝ :=
  let days_since_revision : ℤ := current_day - c.last_revised_day
  let decay : ℝ :=
    c.initial_weight * Real.exp (-lambda * (days_since_revision : ℝ))
  if decay < 0.1 then 0.1 else if decay > 1.0 then 1.0 else decay

/-- Mirrors `Concept::updateMemoryStrength`. -/
noncomputable def Concept.updateMemoryStrength (c : Concept)
    (current_day : ℤ) (lambda : ℝ) : Concept :=
  { c with memory_strength := c.calculateMemory current_day lambda }

/-- Mirrors `Concept::revise`: boost the strength (capped at 1.0), reset the decay
baseline to the boosted value and stamp the revision day. -/
noncomputable def Concept.revise (c : Concept) (current_day : ℤ)
    (boost : ℝ) : Concept :=
  { c with memory_strength := min 1.0 (c.memory_strength + boost),
           initial_weight := min 1.0 (c.memory_strength + boost),
           last_revised_day := current_day }

/-- Mirrors `std::unordered_map` assignment `m[k] = v`: overwrite the entry when the
key is present (keys are unique), otherwise add a new entry. -/
def assocSet {α : Type _} : List (String × α) → String → α → List (String × α)
  | [], k, v => [(k, v)]
  | p :: rest, k, v =>
    if p.1 = k then (k, v) :: rest else p :: assocSet rest k v

/-- Mirrors `std::unordered_map::find` (`none` when absent). -/
def assocGet {α : Type _} : List (String × α) → String → Option α
  | [], _ => none
  | p :: rest, k => if p.1 = k then some p.2 else assocGet rest k

theorem assocGet_assocSet_self {α : Type _} :
    ∀ (l : List (String × α)) (k : String) (v : α),
      assocGet (assocSet l k v) k = some v
  | [], k, v => by simp [assocSet, assocGet]
  | p :: rest, k, v => by
    rw [assocSet]
    split
    · rw [assocGet, if_pos rfl]
    · rw [assocGet]
      rename_i hne
      rw [if_neg hne]
      exact assocGet_assocSet_self rest k v

theorem assocGet_assocSet_ne {α : Type _} :
    ∀ (l : List (String × α)) (k k' : String) (v : α), k' ≠ k →
      assocGet (assocSet l k v) k' = assocGet l k'
  | [], k, k', v, hne => by
    simp only [assocSet, assocGet]
    rw [if_neg (fun h => hne h.symm)]
  | p :: rest, k, k', v, hne => by
    rw [assocSet]
    split
    · rename_i heq
      rw [assocGet, assocGet, if_neg (fun h => hne h.symm),
        if_neg (fun h => hne (heq.symm.trans h).symm)]
    · rw [assocGet, assocGet]
      split
      · rfl
      · exact assocGet_assocSet_ne rest k k' v hne

theorem assocSet_keys_present {α : Type _} :
    ∀ (l : List (String × α)) (k : String) (c v : α),
      assocGet l k = some c →
      (assocSet l k v).map Prod.fst = l.map Prod.fst
  | [], k, c, v, h => by simp [assocGet] at h
  | p :: rest, k, c, v, h => by
    rw [assocGet] at h
    rw [assocSet]
    split
    · rename_i heq
      simp [heq]
    · rename_i hne
      rw [if_neg hne] at h
      simp [assocSet_keys_present rest k c v h]

theorem assocSet_keys_absent {α : Type _} :
    ∀ (l : List (String × α)) (k : String) (v : α),
      assocGet l k = none →
      assocSet l k v = l ++ [(k, v)]
  | [], k, v, _ => by simp [assocSet]
  | p :: rest, k, v, h => by
    rw [assocGet] at h
    rw [assocSet]
    split
    · rename_i heq
      rw [if_pos heq] at h
      exact absurd h (by simp)
    · rename_i hne
      rw [if_neg hne] at h
      simp [assocSet_keys_absent rest k v h]

theorem assocGet_eq_none_iff {α : Type _} :
    ∀ (l : List (String × α)) (k : String),
      assocGet l k = none ↔ k ∉ l.map Prod.fst
  | [], k => by simp [assocGet]
  | p :: rest, k => by
    rw [assocGet]
    split
    · rename_i heq
      simp [heq]
    · rename_i hne
      simp only [List.map_cons, List.mem_cons]
      rw [assocGet_eq_none_iff rest k]
      constructor
      · intro h hmem
        rcases hmem with h' | h'
        · exact hne h'.symm
        · exact h h'
      · intro h h'
        exact h (Or.inr h')

theorem mem_of_assocGet {α : Type _} :
    ∀ (l : List (String × α)) (k : String) (c : α),
      assocGet l k = some c → (k, c) ∈ l
  | [], k, c, h => by simp [assocGet] at h
  | p :: rest, k, c, h => by
    rw [assocGet] at h
    split at h
    · rename_i heq
      cases h
      rw [← heq]
      exact List.mem_cons_self p rest
    · exact List.mem_cons_of_mem p (mem_of_assocGet rest k c h)

theorem assocGet_of_mem_nodup {α : Type _} :
    ∀ (l : List (String × α)) (k : String) (c : α),
      (l.map Prod.fst).Nodup → (k, c) ∈ l → assocGet l k = some c
  | [], k, c, _, h => by simp at h
  | p :: rest, k, c, hnd, h => by
    rw [assocGet]
    have hnd' : (p.1 :: rest.map Prod.fst).Nodup := by
      rw [← List.map_cons]
      exact hnd
    rcases List.mem_cons.mp h with rfl | hmem
    · rw [if_pos rfl]
    · have hk : k ∈ rest.map Prod.fst :=
        List.mem_map.mpr ⟨(k, c), hmem, rfl⟩
      have hne : p.1 ≠ k := fun heq =>
        (List.nodup_cons.mp hnd').1 (heq ▸ hk)
      rw [if_neg hne]
      exact assocGet_of_mem_nodup rest k c (List.nodup_cons.mp hnd').2 hmem

/-- Decomposition of an association list at a present key, together with the
effect of `assocSet` on it. -/
theorem assocSet_decomp {α : Type _} :
    ∀ (l : List (String × α)) (k : String) (c : α),
      assocGet l k = some c →
      ∃ l₁ l₂, l = l₁ ++ (k, c) :: l₂ ∧ (∀ p ∈ l₁, p.1 ≠ k) ∧
        ∀ v, assocSet l k v = l₁ ++ (k, v) :: l₂
  | [], k, c, h => by simp [assocGet] at h
  | p :: rest, k, c, h => by
    rw [assocGet] at h
    by_cases heq : p.1 = k
    · rw [if_pos heq] at h
      cases h
      refine ⟨[], rest, ?_, by simp, ?_⟩
      · simp [← heq]
      · intro v
        rw [assocSet, if_pos heq]
        simp
    · rw [if_neg heq] at h
      obtain ⟨l₁, l₂, hdec, hl₁, hset⟩ := assocSet_decomp rest k c h
      refine ⟨p :: l₁, l₂, by simp [hdec], ?_, ?_⟩
      · intro q hq
        rcases List.mem_cons.mp hq with rfl | hq'
        · exact heq
        · exact hl₁ q hq'
      · intro v
        rw [assocSet, if_neg heq, hset v]
        simp

/-- Mirrors `class MemoryGraph`: the id-keyed concept map, the redundant
prerequisite adjacency map, the priority queue, the day counter, the decay
rate and the revision counter. -/
structure MemoryGraph where
  concepts : List (String × Concept)
  graph : List (String × List String)
  priority_queue : MinHeap
  current_day : ℤ
  lambda : ℝ
  total_revisions : ℕ

/-- The `MemoryGraph(double decay_rate)` constructor. -/
def MemoryGraph.init (decay_rate : ℝ) : MemoryGraph :=
  ⟨[], [], ⟨[]⟩, 0, decay_rate, 0⟩

/-- Mirrors `MemoryGraph::insertConcept`: create the concept stamped with the current
day, store it in the map (silently overwriting an existing id), mirror the
prerequisite list in the adjacency map, and push the id onto the priority
queue at its initial weight. -/
noncomputable def MemoryGraph.insertConcept (g : MemoryGraph)
    (name id category : String) (initial_weight : ℝ)
    (prerequisites : List String) : MemoryGraph :=
  { g with
    concepts := assocSet g.concepts id
      (Concept.make name id category initial_weight g.current_day
        prerequisites),
    graph := assocSet g.graph id prerequisites,
    priority_queue := g.priority_queue.insert id initial_weight }

/-- Mirrors `MemoryGraph::updateMemoryStrengths`: recompute every concept's strength
for the current day, then rebuild the priority queue from the refreshed
values (`rebuildPriorityQueue`). -/
noncomputable def MemoryGraph.updateMemoryStrengths (g : MemoryGraph) :
    MemoryGraph :=
  { g with
    concepts := g.concepts.map
      (fun p => (p.1, p.2.updateMemoryStrength g.current_day g.lambda)),
    priority_queue := MinHeap.rebuild
      ((g.concepts.map
        (fun p => (p.1, p.2.updateMemoryStrength g.current_day g.lambda))).map
        (fun p => (p.1, p.2.memory_strength))) }

/-- Mirrors `MemoryGraph::getNextRevisionRecommendation`: empty string on an empty
queue, otherwise the id at the heap root. -/
def MemoryGraph.getNextRevisionRecommendation (g : MemoryGraph) : String :=
  if g.priority_queue.isEmpty then ""
  else
    match g.priority_queue.peekMin with
    | Except.ok id => id
    | Except.error _ => ""

/-- One iteration of the neighbour-boost loop of
`MemoryGraph::reviseConcept`: if the concept stored at `key` is connected to
the revised target by a prerequisite edge in either direction, boost it by
0.1 (capped at 1.0), reset its baseline weight and update its queue entry. -/
noncomputable def boostConnected (target : Concept) (concept_id : String)
    (st : List (String × Concept) × MinHeap) (key : String) :
    List (String × Concept) × MinHeap :=
  match assocGet st.1 key with
  | none => st
  | some other =>
    if concept_id ∈ other.prerequisites ∨ other.id ∈ target.prerequisites then
      (assocSet st.1 key
        { other with
          memory_strength := min 1.0 (other.memory_strength + 0.1),
          initial_weight := min 1.0 (other.memory_strength + 0.1) },
       st.2.updateKey other.id (min 1.0 (other.memory_strength + 0.1)))
    else st

/-- Mirrors `MemoryGraph::reviseConcept`: throws "Concept not found" before touching
any state when the id is absent; otherwise revises the target, updates its
queue entry, runs the neighbour-boost scan over every concept, and bumps
`total_revisions`. -/
noncomputable def MemoryGraph.reviseConcept (g : MemoryGraph)
    (concept_id : String) (boost : ℝ) : Except String MemoryGraph :=
  match assocGet g.concepts concept_id with
  | none => Except.error ("Concept not found: " ++ concept_id)
  | some c0 =>
    let c1 := c0.revise g.current_day boost
    let concepts1 := assocSet g.concepts concept_id c1
    let pq1 := g.priority_queue.updateKey concept_id c1.memory_strength
    let final := (concepts1.map Prod.fst).foldl
      (boostConnected c1 concept_id) (concepts1, pq1)
    Except.ok
      { g with
        concepts := final.1,
        priority_queue := final.2,
        total_revisions := g.total_revisions + 1 }

/-- Mirrors `MemoryGraph::simulateTimePassage`: advance the day counter (negative
inputs are not validated) and recompute all strengths. -/
noncomputable def MemoryGraph.simulateTimePassage (g : MemoryGraph)
    (days : ℤ) : MemoryGraph :=
  MemoryGraph.updateMemoryStrengths { g with current_day := g.current_day + days }

/-- Mirrors `MemoryGraph::setDecayRate`. -/
def MemoryGraph.setDecayRate (g : MemoryGraph) (rate : ℝ) : MemoryGraph :=
  { g with lambda := rate }

/-- Mirrors `MemoryGraph::getCurrentDay`. -/
def MemoryGraph.getCurrentDay (g : MemoryGraph) : ℤ := g.current_day

/-- Mirrors `MemoryGraph::getTotalConcepts`. -/
def MemoryGraph.getTotalConcepts (g : MemoryGraph) : ℕ := g.concepts.length

/-- All states reachable from a freshly constructed graph through the public
mutating interface. -/
inductive Reachable : MemoryGraph → Prop where
  | init : ∀ r, Reachable (MemoryGraph.init r)
  | insert : ∀ g n id cat w pr, Reachable g →
      Reachable (g.insertConcept n id cat w pr)
  | update : ∀ g, Reachable g → Reachable g.updateMemoryStrengths
  | revise : ∀ g id b g', Reachable g →
      g.reviseConcept id b = Except.ok g' → Reachable g'
  | simulate : ∀ g d, Reachable g → Reachable (g.simulateTimePassage d)
  | setRate : ∀ g r, Reachable g → Reachable (g.setDecayRate r)

/-- Reachability restricted to histories that never insert an id that is
already present (so the silent-overwrite path of `insertConcept` is never
taken). -/
inductive ReachableFresh : MemoryGraph → Prop where
  | init : ∀ r, ReachableFresh (MemoryGraph.init r)
  | insert : ∀ g n id cat w pr, ReachableFresh g →
      assocGet g.concepts id = none →
      ReachableFresh (g.insertConcept n id cat w pr)
  | update : ∀ g, ReachableFresh g → ReachableFresh g.updateMemoryStrengths
  | revise : ∀ g id b g', ReachableFresh g →
      g.reviseConcept id b = Except.ok g' → ReachableFresh g'
  | simulate : ∀ g d, ReachableFresh g →
      ReachableFresh (g.simulateTimePassage d)
  | setRate : ∀ g r, ReachableFresh g → ReachableFresh (g.setDecayRate r)

/-- The (id, strength) pairs held in the heap array. -/
def hPairs (l : List HeapNode) : List (String × ℝ) :=
  l.map (fun nd => (nd.concept_id, nd.memory_strength))

/-- The (id, strength) pairs held in the concept map. -/
def cPairs (l : List (String × Concept)) : List (String × ℝ) :=
  l.map (fun p => (p.1, p.2.memory_strength))

/-- Well-formedness of a graph state: stored ids match their keys, keys are
unique, the backing array is a min-heap, and the heap entries correspond
one-to-one to the concepts' current strengths. -/
def WellFormed (g : MemoryGraph) : Prop :=
  (∀ p ∈ g.concepts, p.2.id = p.1) ∧
  (g.concepts.map Prod.fst).Nodup ∧
  IsMinHeap g.priority_queue.heap ∧
  (hPairs g.priority_queue.heap).Perm (cPairs g.concepts)

theorem getD_map_pair : ∀ (l : List HeapNode) (i : Nat),
    (hPairs l).getD i ("", 0)
      = ((l.getD i default).concept_id, (l.getD i default).memory_strength)
  | [], _ => rfl
  | _ :: _, 0 => rfl
  | _ :: xs, i + 1 => getD_map_pair xs i

theorem pair_unique_of_decomp {l₁ l₂ : List (String × Concept)} {k : String}
    {c : Concept} (hnd : ((l₁ ++ (k, c) :: l₂).map Prod.fst).Nodup)
    {s : ℝ} (hmem : (k, s) ∈ cPairs (l₁ ++ (k, c) :: l₂)) :
    s = c.memory_strength := by
  rw [List.map_append, List.map_cons] at hnd
  have hknot := (List.nodup_cons.mp (List.nodup_middle.mp hnd)).1
  rw [cPairs, List.map_append, List.map_cons] at hmem
  rcases List.mem_append.mp hmem with hm | hm
  · exfalso
    apply hknot
    apply List.mem_append_left
    rcases List.mem_map.mp hm with ⟨p, hp, heq⟩
    have hp1 : p.1 = k := congrArg Prod.fst heq
    exact List.mem_map.mpr ⟨p, hp, hp1⟩
  · rcases List.mem_cons.mp hm with heq | hm
    · exact congrArg Prod.snd heq
    · exfalso
      apply hknot
      apply List.mem_append_right
      rcases List.mem_map.mp hm with ⟨p, hp, heq⟩
      have hp1 : p.1 = k := congrArg Prod.fst heq
      exact List.mem_map.mpr ⟨p, hp, hp1⟩

theorem heap_has_key {pq : MinHeap} {cs : List (String × Concept)}
    (hperm : (hPairs pq.heap).Perm (cPairs cs)) {k : String} {c : Concept}
    (hc : assocGet cs k = some c) : ∃ i, findIdxScan pq.heap k = some i := by
  have hmem : (k, c.memory_strength) ∈ cPairs cs :=
    List.mem_map.mpr ⟨(k, c), mem_of_assocGet _ _ _ hc, rfl⟩
  have hmem' : (k, c.memory_strength) ∈ hPairs pq.heap :=
    hperm.mem_iff.mpr hmem
  have hk : k ∈ pq.heap.map HeapNode.concept_id := by
    rcases List.mem_map.mp hmem' with ⟨nd, hnd, heq⟩
    have hnd1 : nd.concept_id = k := congrArg Prod.fst heq
    exact List.mem_map.mpr ⟨nd, hnd, hnd1⟩
  exact Option.isSome_iff_exists.mp (findIdxScan_mem pq.heap k hk)

/-- The single-entry update step shared by the target update and each
neighbour boost of `reviseConcept`: replacing the concept at a present key
with one of the same id while issuing the matching `updateKey` preserves
every component of well-formedness. -/
theorem sync_step {cs : List (String × Concept)} {pq : MinHeap}
    (hids : ∀ p ∈ cs, p.2.id = p.1) (hnd : (cs.map Prod.fst).Nodup)
    (hheap : IsMinHeap pq.heap)
    (hperm : (hPairs pq.heap).Perm (cPairs cs))
    {k : String} {c : Concept} (hc : assocGet cs k = some c)
    (c' : Concept) (hid : c'.id = k) (s : ℝ)
    (hs : c'.memory_strength = s) :
    (∀ p ∈ assocSet cs k c', p.2.id = p.1) ∧
    ((assocSet cs k c').map Prod.fst).Nodup ∧
    IsMinHeap (pq.updateKey k s).heap ∧
    (hPairs (pq.updateKey k s).heap).Perm (cPairs (assocSet cs k c')) := by
  obtain ⟨l₁, l₂, hdec, hl₁, hset⟩ := assocSet_decomp cs k c hc
  refine ⟨?_, ?_, updateKey_isMinHeap pq hheap k s, ?_⟩
  · intro p hp
    rw [hset c'] at hp
    rcases List.mem_append.mp hp with hp | hp
    · exact hids p (by rw [hdec]; exact List.mem_append_left _ hp)
    · rcases List.mem_cons.mp hp with rfl | hp
      · exact hid
      · exact hids p
          (by rw [hdec]
              exact List.mem_append_right _ (List.mem_cons_of_mem _ hp))
  · rw [assocSet_keys_present cs k c c' hc]
    exact hnd
  · obtain ⟨i, hf⟩ := heap_has_key hperm hc
    obtain ⟨hilen, hfid⟩ := findIdxScan_spec pq.heap k i hf
    have hperm1 : (hPairs (pq.updateKey k s).heap).Perm
        ((hPairs pq.heap).set i (k, s)) := by
      have h := (updateKey_perm pq k s i hf).map
        (fun nd => (nd.concept_id, nd.memory_strength))
      rw [List.map_set] at h
      exact h
    have hAlen : (hPairs pq.heap).length = pq.heap.length := by
      simp [hPairs]
    have hAi : (hPairs pq.heap).getD i ("", 0) = (k, sAt pq.heap i) := by
      rw [getD_map_pair pq.heap i, hfid]
      rfl
    have hset_perm : ((hPairs pq.heap).set i (k, s)).Perm
        ((k, s) :: (hPairs pq.heap).eraseIdx i) :=
      set_perm_cons_eraseIdx _ i (by omega) _
    have hself : (hPairs pq.heap).Perm
        ((k, sAt pq.heap i) :: (hPairs pq.heap).eraseIdx i) := by
      have h := self_perm_cons_eraseIdx (hPairs pq.heap) i (by omega) ("", 0)
      rw [hAi] at h
      exact h
    have hBperm : (cPairs cs).Perm
        ((k, c.memory_strength) :: (cPairs l₁ ++ cPairs l₂)) := by
      rw [hdec, cPairs, List.map_append, List.map_cons]
      exact List.perm_middle
    have hB'perm : (cPairs (assocSet cs k c')).Perm
        ((k, s) :: (cPairs l₁ ++ cPairs l₂)) := by
      rw [hset c', cPairs, List.map_append, List.map_cons, hs]
      exact List.perm_middle
    have hs0mem : (k, sAt pq.heap i) ∈ cPairs cs :=
      hperm.mem_iff.mp (hself.mem_iff.mpr (List.mem_cons_self _ _))
    have hs0 : sAt pq.heap i = c.memory_strength := by
      apply pair_unique_of_decomp (hdec ▸ hnd) (hdec ▸ hs0mem)
    have hEr : ((hPairs pq.heap).eraseIdx i).Perm (cPairs l₁ ++ cPairs l₂) := by
      apply List.Perm.cons_inv (a := (k, c.memory_strength))
      have h1 : ((k, c.memory_strength) :: (hPairs pq.heap).eraseIdx i).Perm
          (cPairs cs) := by
        rw [← hs0]
        exact hself.symm.trans hperm
      exact h1.trans hBperm
    exact hperm1.trans (hset_perm.trans ((hEr.cons _).trans hB'perm.symm))

theorem wf_init (r : ℝ) : WellFormed (MemoryGraph.init r) := by
  refine ⟨by simp [MemoryGraph.init], by simp [MemoryGraph.init], ?_, ?_⟩
  · intro j hj0 hjlen
    simp [MemoryGraph.init] at hjlen
  · simp [MemoryGraph.init, hPairs, cPairs]

theorem wf_insertConcept {g : MemoryGraph} (hwf : WellFormed g)
    (n id cat : String) (w : ℝ) (pr : List String)
    (hfresh : assocGet g.concepts id = none) :
    WellFormed (g.insertConcept n id cat w pr) := by
  obtain ⟨hids, hnd, hheap, hperm⟩ := hwf
  unfold MemoryGraph.insertConcept
  have habs := assocSet_keys_absent g.concepts id
    (Concept.make n id cat w g.current_day pr) hfresh
  refine ⟨?_, ?_, insert_isMinHeap _ hheap _ _, ?_⟩
  · intro p hp
    rw [habs] at hp
    rcases List.mem_append.mp hp with hp | hp
    · exact hids p hp
    · rcases List.mem_cons.mp hp with rfl | hp
      · rfl
      · simp at hp
  · rw [habs, List.map_append, List.nodup_append]
    refine ⟨hnd, by simp, ?_⟩
    intro a ha
    simp only [List.map_cons, List.map_nil, List.mem_singleton]
    intro heq
    rw [assocGet_eq_none_iff] at hfresh
    exact hfresh (heq ▸ ha)
  · have h1 : (hPairs (g.priority_queue.insert id w).heap).Perm
        (hPairs g.priority_queue.heap ++ [(id, w)]) := by
      have h := (insert_perm g.priority_queue id w).map
        (fun nd => (nd.concept_id, nd.memory_strength))
      rw [List.map_append] at h
      exact h
    have h2 : cPairs (assocSet g.concepts id
        (Concept.make n id cat w g.current_day pr)) =
        cPairs g.concepts ++ [(id, w)] := by
      rw [habs, cPairs, List.map_append]
      rfl
    rw [h2]
    exact h1.trans (hperm.append (List.Perm.refl _))

theorem wf_updateMemoryStrengths {g : MemoryGraph} (hwf : WellFormed g) :
    WellFormed g.updateMemoryStrengths := by
  obtain ⟨hids, hnd, hheap, hperm⟩ := hwf
  unfold MemoryGraph.updateMemoryStrengths
  refine ⟨?_, ?_, rebuild_isMinHeap _, ?_⟩
  · intro p hp
    rcases List.mem_map.mp hp with ⟨q, hq, rfl⟩
    exact hids q hq
  · rw [List.map_map]
    exact hnd
  · have h := (rebuild_perm ((g.concepts.map
      (fun p => (p.1, p.2.updateMemoryStrength g.current_day g.lambda))).map
      (fun p => (p.1, p.2.memory_strength)))).map
      (fun nd => (nd.concept_id, nd.memory_strength))
    rw [List.map_map] at h
    simpa [hPairs, cPairs] using h

theorem wf_setDecayRate {g : MemoryGraph} (hwf : WellFormed g) (r : ℝ) :
    WellFormed (g.setDecayRate r) := hwf

theorem wf_simulateTimePassage {g : MemoryGraph} (hwf : WellFormed g)
    (d : ℤ) : WellFormed (g.simulateTimePassage d) :=
  wf_updateMemoryStrengths
    (g := { g with current_day := g.current_day + d }) hwf

theorem boostConnected_none (target : Concept) (tid : String)
    (cs : List (String × Concept)) (pq : MinHeap) (key : String)
    (hg : assocGet cs key = none) :
    boostConnected target tid (cs, pq) key = (cs, pq) := by
  unfold boostConnected
  rw [hg]

theorem boostConnected_some (target : Concept) (tid : String)
    (cs : List (String × Concept)) (pq : MinHeap) (key : String)
    (other : Concept) (hg : assocGet cs key = some other) :
    boostConnected target tid (cs, pq) key =
      if tid ∈ other.prerequisites ∨ other.id ∈ target.prerequisites then
        (assocSet cs key
          { other with
            memory_strength := min 1.0 (other.memory_strength + 0.1),
            initial_weight := min 1.0 (other.memory_strength + 0.1) },
         pq.updateKey other.id (min 1.0 (other.memory_strength + 0.1)))
      else (cs, pq) := by
  unfold boostConnected
  rw [hg]

/-- The neighbour-boost fold of `reviseConcept` preserves every component of
well-formedness. -/
theorem foldBoost_wf (target : Concept) (tid : String) :
    ∀ (ks : List String) (cs : List (String × Concept)) (pq : MinHeap),
      (∀ p ∈ cs, p.2.id = p.1) → (cs.map Prod.fst).Nodup →
      IsMinHeap pq.heap → (hPairs pq.heap).Perm (cPairs cs) →
      (∀ p ∈ (ks.foldl (boostConnected target tid) (cs, pq)).1,
        p.2.id = p.1) ∧
      ((ks.foldl (boostConnected target tid) (cs, pq)).1.map
        Prod.fst).Nodup ∧
      IsMinHeap ((ks.foldl (boostConnected target tid) (cs, pq)).2.heap) ∧
      (hPairs ((ks.foldl (boostConnected target tid) (cs, pq)).2.heap)).Perm
        (cPairs ((ks.foldl (boostConnected target tid) (cs, pq)).1))
  | [], cs, pq, h1, h2, h3, h4 => ⟨h1, h2, h3, h4⟩
  | key :: ks, cs, pq, h1, h2, h3, h4 => by
    rw [List.foldl_cons]
    cases hg : assocGet cs key with
    | none =>
      rw [boostConnected_none target tid cs pq key hg]
      exact foldBoost_wf target tid ks cs pq h1 h2 h3 h4
    | some other =>
      rw [boostConnected_some target tid cs pq key other hg]
      split
      · have hoid : other.id = key := h1 (key, other) (mem_of_assocGet _ _ _ hg)
        have hup : pq.updateKey other.id (min 1.0 (other.memory_strength + 0.1))
            = pq.updateKey key (min 1.0 (other.memory_strength + 0.1)) := by
          rw [hoid]
        rw [hup]
        obtain ⟨g1, g2, g3, g4⟩ := sync_step h1 h2 h3 h4 hg
          { other with
            memory_strength := min 1.0 (other.memory_strength + 0.1),
            initial_weight := min 1.0 (other.memory_strength + 0.1) }
          hoid (min 1.0 (other.memory_strength + 0.1)) rfl
        exact foldBoost_wf target tid ks _ _ g1 g2 g3 g4
      · exact foldBoost_wf target tid ks cs pq h1 h2 h3 h4

theorem wf_reviseConcept {g : MemoryGraph} (hwf : WellFormed g)
    {id : String} {b : ℝ} {g' : MemoryGraph}
    (h : g.reviseConcept id b = Except.ok g') : WellFormed g' := by
  obtain ⟨hids, hnd, hheap, hperm⟩ := hwf
  unfold MemoryGraph.reviseConcept at h
  cases hg : assocGet g.concepts id with
  | none =>
    rw [hg] at h
    exact absurd h (by simp)
  | some c0 =>
    rw [hg] at h
    simp only [Except.ok.injEq] at h
    subst h
    have h0 : c0.id = id := hids (id, c0) (mem_of_assocGet _ _ _ hg)
    obtain ⟨s1, s2, s3, s4⟩ := sync_step hids hnd hheap hperm hg
      (c0.revise g.current_day b) h0
      ((c0.revise g.current_day b).memory_strength) rfl
    obtain ⟨f1, f2, f3, f4⟩ := foldBoost_wf (c0.revise g.current_day b) id
      ((assocSet g.concepts id (c0.revise g.current_day b)).map Prod.fst)
      _ _ s1 s2 s3 s4
    exact ⟨f1, f2, f3, f4⟩

/-- Every state reachable without duplicate-id insertions is well-formed. -/
theorem wf_of_reachableFresh {g : MemoryGraph} (h : ReachableFresh g) :
    WellFormed g := by
  induction h with
  | init r => exact wf_init r
  | insert g n id cat w pr _ hfresh ih =>
    exact wf_insertConcept ih n id cat w pr hfresh
  | update g _ ih => exact wf_updateMemoryStrengths ih
  | revise g id b g' _ hok ih => exact wf_reviseConcept ih hok
  | simulate g d _ ih => exact wf_simulateTimePassage ih d
  | setRate g r _ ih => exact wf_setDecayRate ih r

theorem assocGet_isSome_of_mem_keys {α : Type _} :
    ∀ (l : List (String × α)) (k : String), k ∈ l.map Prod.fst →
      (assocGet l k).isSome
  | [], k, h => by simp at h
  | p :: rest, k, h => by
    rw [assocGet]
    split
    · simp
    · rename_i hne
      rw [List.map_cons] at h
      rcases List.mem_cons.mp h with h' | h'
      · exact absurd h'.symm hne
      · exact assocGet_isSome_of_mem_keys rest k h'

/-- What the neighbour-boost fold of `reviseConcept` stores at each key: a
key in the fold list whose concept is connected to the target (it lists the
target, or the target lists it) is boosted exactly once — strength and
baseline weight become `min 1.0 (strength + 0.1)`, all other fields kept —
and every other entry is untouched. -/
theorem foldBoost_get (target : Concept) (tid : String) :
    ∀ (ks : List String) (cs : List (String × Concept)) (pq : MinHeap)
      (k : String),
      ks.Nodup →
      (∀ k' ∈ ks, (assocGet cs k').isSome) →
      assocGet ((ks.foldl (boostConnected target tid) (cs, pq)).1) k =
        if k ∈ ks then
          (assocGet cs k).map (fun c =>
            if tid ∈ c.prerequisites ∨ c.id ∈ target.prerequisites then
              { c with
                memory_strength := min 1.0 (c.memory_strength + 0.1),
                initial_weight := min 1.0 (c.memory_strength + 0.1) }
            else c)
        else assocGet cs k
  | [], cs, pq, k, _, _ => by simp
  | key :: ks, cs, pq, k, hnd, hsome => by
    rw [List.foldl_cons]
    have hkey := hsome key (List.mem_cons_self _ _)
    cases hg : assocGet cs key with
    | none =>
      rw [hg] at hkey
      simp at hkey
    | some other =>
      have hnd1 : key ∉ ks := (List.nodup_cons.mp hnd).1
      have hnd2 : ks.Nodup := (List.nodup_cons.mp hnd).2
      by_cases hconn :
          tid ∈ other.prerequisites ∨ other.id ∈ target.prerequisites
      · rw [boostConnected_some target tid cs pq key other hg, if_pos hconn]
        have hsome' : ∀ k' ∈ ks,
            (assocGet (assocSet cs key
              { other with
                memory_strength := min 1.0 (other.memory_strength + 0.1),
                initial_weight := min 1.0 (other.memory_strength + 0.1) })
              k').isSome := by
          intro k' hk'
          rw [assocGet_assocSet_ne cs key k' _ (fun he => hnd1 (he ▸ hk'))]
          exact hsome k' (List.mem_cons_of_mem _ hk')
        rw [foldBoost_get target tid ks _ _ k hnd2 hsome']
        by_cases hkks : k ∈ ks
        · rw [if_pos hkks, if_pos (List.mem_cons_of_mem _ hkks)]
          have hkne : k ≠ key := fun he => hnd1 (he ▸ hkks)
          rw [assocGet_assocSet_ne cs key k _ hkne]
        · rw [if_neg hkks]
          by_cases hkkey : k = key
          · subst hkkey
            rw [assocGet_assocSet_self, if_pos (List.mem_cons_self _ _), hg,
              Option.map_some', if_pos hconn]
          · have hnotin : k ∉ key :: ks := by
              intro hmem
              rcases List.mem_cons.mp hmem with h' | h'
              · exact hkkey h'
              · exact hkks h'
            rw [assocGet_assocSet_ne cs key k _ hkkey, if_neg hnotin]
      · rw [boostConnected_some target tid cs pq key other hg, if_neg hconn]
        rw [foldBoost_get target tid ks cs pq k hnd2
          (fun k' hk' => hsome k' (List.mem_cons_of_mem _ hk'))]
        by_cases hkks : k ∈ ks
        · rw [if_pos hkks, if_pos (List.mem_cons_of_mem _ hkks)]
        · rw [if_neg hkks]
          by_cases hkkey : k = key
          · subst hkkey
            rw [if_pos (List.mem_cons_self _ _), hg, Option.map_some',
              if_neg hconn]
          · have hnotin : k ∉ key :: ks := by
              intro hmem
              rcases List.mem_cons.mp hmem with h' | h'
              · exact hkkey h'
              · exact hkks h'
            rw [if_neg hnotin]

/-- The clamp written as two conditionals in `calculateMemory` agrees with
`max 0.1 (min 1.0 x)`. -/
theorem clamp_eq (x : ℝ) :
    (if x < 0.1 then (0.1 : ℝ) else if x > 1.0 then 1.0 else x)
      = max 0.1 (min 1.0 x) := by
  split
  · rename_i h
    rw [max_eq_left]
    exact le_trans (min_le_right _ _) (le_of_lt h)
  · rename_i h
    split
    · rename_i h2
      rw [min_eq_left (le_of_lt h2), max_eq_right (by norm_num)]
    · rename_i h2
      rw [min_eq_right (le_of_not_lt h2), max_eq_right (le_of_not_lt h)]

theorem heapifyUp_zero (l : List HeapNode) : heapifyUp l 0 = l := by
  rw [heapifyUp]

theorem heapifyUp_no_swap (l : List HeapNode) (i : Nat)
    (h : ¬(sAt l (i / 2) > sAt l (i + 1))) : heapifyUp l (i + 1) = l := by
  rw [heapifyUp, if_neg h]

theorem length_assocSet_present {α : Type _} (l : List (String × α))
    (k : String) (c v : α) (h : assocGet l k = some c) :
    (assocSet l k v).length = l.length := by
  have hkeys := congrArg List.length (assocSet_keys_present l k c v h)
  simpa using hkeys

/-- The neighbour-boost fold changes neither the concept count nor the heap
size. -/
theorem foldBoost_lengths (target : Concept) (tid : String) :
    ∀ (ks : List String) (cs : List (String × Concept)) (pq : MinHeap),
      (ks.foldl (boostConnected target tid) (cs, pq)).1.length = cs.length ∧
      (ks.foldl (boostConnected target tid) (cs, pq)).2.heap.length
        = pq.heap.length
  | [], cs, pq => ⟨rfl, rfl⟩
  | key :: ks, cs, pq => by
    rw [List.foldl_cons]
    cases hg : assocGet cs key with
    | none =>
      rw [boostConnected_none target tid cs pq key hg]
      exact foldBoost_lengths target tid ks cs pq
    | some other =>
      rw [boostConnected_some target tid cs pq key other hg]
      split
      · obtain ⟨ih1, ih2⟩ := foldBoost_lengths target tid ks
          (assocSet cs key
            { other with
              memory_strength := min 1.0 (other.memory_strength + 0.1),
              initial_weight := min 1.0 (other.memory_strength + 0.1) })
          (pq.updateKey other.id (min 1.0 (other.memory_strength + 0.1)))
        constructor
        · rw [ih1, length_assocSet_present cs key other _ hg]
        · rw [ih2, length_updateKey]
      · exact foldBoost_lengths target tid ks cs pq

/-- Full characterisation of what `reviseConcept` stores at every key other
than the revised target: boosted once when connected to the target by a
prerequisite edge in either direction, untouched otherwise. -/
theorem reviseConcept_get {g : MemoryGraph} (hwf : WellFormed g)
    {id : String} {b : ℝ} {g' : MemoryGraph}
    (hok : g.reviseConcept id b = Except.ok g')
    (c0 : Concept) (h0 : assocGet g.concepts id = some c0)
    (k : String) (hk : k ≠ id) (c : Concept)
    (hc : assocGet g.concepts k = some c) :
    assocGet g'.concepts k =
      some (if id ∈ c.prerequisites ∨ k ∈ c0.prerequisites then
        { c with
          memory_strength := min 1.0 (c.memory_strength + 0.1),
          initial_weight := min 1.0 (c.memory_strength + 0.1) }
      else c) := by
  obtain ⟨hids, hnd, hheap, hperm⟩ := hwf
  unfold MemoryGraph.reviseConcept at hok
  rw [h0] at hok
  simp only [Except.ok.injEq] at hok
  subst hok
  have hkeys := assocSet_keys_present g.concepts id c0
    (c0.revise g.current_day b) h0
  have hnd1 : ((assocSet g.concepts id (c0.revise g.current_day b)).map
      Prod.fst).Nodup := by
    rw [hkeys]
    exact hnd
  have hkmem : k ∈ (assocSet g.concepts id (c0.revise g.current_day b)).map
      Prod.fst := by
    rw [hkeys]
    exact List.mem_map.mpr ⟨(k, c), mem_of_assocGet _ _ _ hc, rfl⟩
  rw [foldBoost_get (c0.revise g.current_day b) id _ _ _ k hnd1
    (fun k' hk' => assocGet_isSome_of_mem_keys _ k' hk'), if_pos hkmem,
    assocGet_assocSet_ne g.concepts id k _ hk, hc, Option.map_some']
  have hcid : c.id = k := hids (k, c) (mem_of_assocGet _ _ _ hc)
  have hiff : (id ∈ c.prerequisites ∨
      c.id ∈ (c0.revise g.current_day b).prerequisites)
      ↔ (id ∈ c.prerequisites ∨ k ∈ c0.prerequisites) := by
    have hpre : (c0.revise g.current_day b).prerequisites
        = c0.prerequisites := rfl
    rw [hpre, hcid]
  exact congrArg some (if_congr hiff rfl rfl)

/-- Under well-formedness, the recommendation is empty exactly on the empty
graph, and otherwise names a concept of globally minimal strength. -/
theorem getNext_spec_of_wf {g : MemoryGraph} (hwf : WellFormed g) :
    (g.concepts = [] → g.getNextRevisionRecommendation = "") ∧
    (g.concepts ≠ [] →
      ∃ c, assocGet g.concepts g.getNextRevisionRecommendation = some c ∧
        ∀ p ∈ g.concepts, c.memory_strength ≤ p.2.memory_strength) := by
  obtain ⟨hids, hnd, hheap, hperm⟩ := hwf
  constructor
  · intro hemp
    have h0 : cPairs g.concepts = [] := by rw [hemp]; rfl
    have h1 : hPairs g.priority_queue.heap = [] :=
      List.Perm.eq_nil (h0 ▸ hperm)
    have h2 : g.priority_queue.heap = [] := by
      have := congrArg List.length h1
      simpa [hPairs] using List.length_eq_zero.mp (by simpa [hPairs] using this)
    unfold MemoryGraph.getNextRevisionRecommendation
    rw [if_pos]
    rw [MinHeap.isEmpty, h2]
    rfl
  · intro hne
    have hlen : g.priority_queue.heap.length = g.concepts.length := by
      have := hperm.length_eq
      simpa [hPairs, cPairs] using this
    cases hh : g.priority_queue.heap with
    | nil =>
      rw [hh] at hlen
      exact absurd (List.length_eq_zero.mp hlen.symm) hne
    | cons x t =>
      have hnext : g.getNextRevisionRecommendation = x.concept_id := by
        unfold MemoryGraph.getNextRevisionRecommendation
        rw [if_neg (by rw [MinHeap.isEmpty, hh]; simp)]
        rw [MinHeap.peekMin, hh]
      have hxmem : (x.concept_id, x.memory_strength) ∈ cPairs g.concepts := by
        apply hperm.mem_iff.mp
        rw [hh]
        exact List.mem_cons_self _ _
      rcases List.mem_map.mp hxmem with ⟨p, hp, heq⟩
      have hpk : p.1 = x.concept_id := congrArg Prod.fst heq
      have hpv : p.2.memory_strength = x.memory_strength :=
        congrArg Prod.snd heq
      refine ⟨p.2, ?_, ?_⟩
      · rw [hnext, ← hpk]
        exact assocGet_of_mem_nodup g.concepts p.1 p.2 hnd (by
          rw [← Prod.mk.eta (p := p)] at hp
          exact hp)
      · intro q hq
        have hqmem : (q.1, q.2.memory_strength) ∈ hPairs g.priority_queue.heap :=
          hperm.mem_iff.mpr (List.mem_map.mpr ⟨q, hq, rfl⟩)
        rcases List.mem_map.mp hqmem with ⟨nd, hnd', heqq⟩
        rcases List.getElem_of_mem hnd' with ⟨j, hjlen, hjeq⟩
        have hroot := isMinHeap_root_le hheap j hjlen
        have hs0 : sAt g.priority_queue.heap 0 = x.memory_strength := by
          unfold sAt
          rw [hh]
          rfl
        have hsj : sAt g.priority_queue.heap j = q.2.memory_strength := by
          unfold sAt
          rw [List.getD_eq_getElem?_getD, List.getElem?_eq_getElem hjlen,
            hjeq]
          exact congrArg Prod.snd heqq
        rw [hpv, ← hs0, ← hsj]
        exact hroot

/-- C1: for every concept, `calculateMemory(current_day, lambda)` returns
`initial_weight * exp(-lambda * (current_day - last_revised_day))` clamped to
the closed interval [0.1, 1.0] (it is a pure function — in this embedding it
reads fields and mutates nothing by construction), and after
`updateMemoryStrengths()` every concept's `memory_strength` equals this
value at the graph's current day and lambda. -/
theorem c1_calculateMemory_spec (c : Concept) (d : ℤ) (lam : ℝ)
    (g : MemoryGraph) (p : String × Concept)
    (hp : p ∈ g.updateMemoryStrengths.concepts) :
    c.calculateMemory d lam
      = max 0.1 (min 1.0 (c.initial_weight *
          Real.exp (-lam * ((d - c.last_revised_day : ℤ) : ℝ)))) ∧
    0.1 ≤ c.calculateMemory d lam ∧ c.calculateMemory d lam ≤ 1.0 ∧
    p.2.memory_strength
      = p.2.calculateMemory g.updateMemoryStrengths.current_day
          g.updateMemoryStrengths.lambda := by
  have hcl : c.calculateMemory d lam
      = max 0.1 (min 1.0 (c.initial_weight *
          Real.exp (-lam * ((d - c.last_revised_day : ℤ) : ℝ)))) :=
    clamp_eq _
  refine ⟨hcl, ?_, ?_, ?_⟩
  · rw [hcl]
    exact le_max_left _ _
  · rw [hcl]
    exact max_le (by norm_num) (min_le_left _ _)
  · unfold MemoryGraph.updateMemoryStrengths at hp
    rcases List.mem_map.mp hp with ⟨q, hq, rfl⟩
    rfl

/-- Witness for C1 at a one-concept graph with `lambda = 0`: after
`updateMemoryStrengths` the stored strength equals `calculateMemory`, and
the decay formula evaluates to the unclamped 0.5. -/
theorem c1_witness :
    (("n", (Concept.make "N" "n" "C" 0.5 0 []).updateMemoryStrength 0 0)
      ∈ ((MemoryGraph.init 0).insertConcept "N" "n" "C" 0.5
          []).updateMemoryStrengths.concepts) ∧
    ((Concept.make "N" "n" "C" 0.5 0 []).updateMemoryStrength
        0 0).memory_strength
      = ((Concept.make "N" "n" "C" 0.5 0 []).updateMemoryStrength
          0 0).calculateMemory 0 0 ∧
    (Concept.make "N" "n" "C" 0.5 0 []).calculateMemory 0 0 = 0.5 := by
  have hp : ("n", (Concept.make "N" "n" "C" 0.5 0 []).updateMemoryStrength 0 0)
      ∈ ((MemoryGraph.init 0).insertConcept "N" "n" "C" 0.5
          []).updateMemoryStrengths.concepts :=
    List.mem_cons_self _ _
  refine ⟨hp, ?_, ?_⟩
  · exact (c1_calculateMemory_spec (Concept.make "N" "n" "C" 0.5 0 []) 0 0
      ((MemoryGraph.init 0).insertConcept "N" "n" "C" 0.5 []) _ hp).2.2.2
  · have h := (c1_calculateMemory_spec (Concept.make "N" "n" "C" 0.5 0 []) 0 0
      ((MemoryGraph.init 0).insertConcept "N" "n" "C" 0.5 []) _ hp).1
    rw [h]
    norm_num [Concept.make]

/-- C5: `reviseConcept` on an id absent from the concept map fails with the
"Concept not found" error; the throw happens before any mutation, so no
successor state is produced and all visible state is left untouched (in this
pure embedding the caller keeps the unchanged graph). -/
theorem c5_reviseConcept_notFound (g : MemoryGraph) (id : String) (b : ℝ)
    (habs : assocGet g.concepts id = none) :
    g.reviseConcept id b = Except.error ("Concept not found: " ++ id) ∧
    ∀ g', g.reviseConcept id b ≠ Except.ok g' := by
  have h : g.reviseConcept id b
      = Except.error ("Concept not found: " ++ id) := by
    unfold MemoryGraph.reviseConcept
    rw [habs]
  refine ⟨h, fun g' hok => ?_⟩
  rw [h] at hok
  exact Except.noConfusion hok

/-- Witness for C5 on the freshly constructed (empty) graph. -/
theorem c5_witness :
    assocGet (MemoryGraph.init 0.15).concepts "x" = none ∧
    (MemoryGraph.init 0.15).reviseConcept "x" 0.4
      = Except.error ("Concept not found: " ++ "x") :=
  ⟨rfl, (c5_reviseConcept_notFound (MemoryGraph.init 0.15) "x" 0.4 rfl).1⟩

/-- C7: `revise(current_day, boost)` sets `memory_strength` to
`min(1.0, memory_strength + boost)`, sets `initial_weight` to that same
value, sets `last_revised_day` to `current_day`, touches no other field, and
never fails (it is total); subsequent decay is computed from the boosted
baseline rather than the original weight. -/
theorem c7_revise_spec (c : Concept) (d : ℤ) (b : ℝ) :
    (c.revise d b).memory_strength = min 1.0 (c.memory_strength + b) ∧
    (c.revise d b).initial_weight = min 1.0 (c.memory_strength + b) ∧
    (c.revise d b).last_revised_day = d ∧
    (c.revise d b).name = c.name ∧
    (c.revise d b).id = c.id ∧
    (c.revise d b).category = c.category ∧
    (c.revise d b).prerequisites = c.prerequisites ∧
    ∀ (d2 : ℤ) (lam : ℝ),
      (c.revise d b).calculateMemory d2 lam
        = max 0.1 (min 1.0 (min 1.0 (c.memory_strength + b) *
            Real.exp (-lam * ((d2 - d : ℤ) : ℝ)))) :=
  ⟨rfl, rfl, rfl, rfl, rfl, rfl, rfl, fun _ _ => clamp_eq _⟩

/-- C8 counterexample: `insertConcept` applies no clamping — passing
`initial_weight = 2` stores 2 verbatim, outside [0, 1]. -/
theorem c8_counterexample :
    (assocGet ((MemoryGraph.init 0.15).insertConcept "N" "n" "C" 2
        []).concepts "n").map Concept.initial_weight = some 2 ∧
    ¬((2 : ℝ) ≤ 1) := by
  constructor
  · rfl
  · norm_num

/-- C8 amended: after `insertConcept` the stored concept's `initial_weight`
equals the caller's argument verbatim — no clamping happens on the way in,
so it lies in [0, 1] exactly when the argument does. -/
theorem c8_amended_insert_stores_weight (g : MemoryGraph)
    (n id cat : String) (w : ℝ) (pr : List String) :
    (assocGet (g.insertConcept n id cat w pr).concepts id).map
      Concept.initial_weight = some w := by
  unfold MemoryGraph.insertConcept
  rw [assocGet_assocSet_self]
  rfl

/-- C9 counterexample: `simulateTimePassage` accepts a negative argument and
decreases `current_day` — the counter is not monotone. -/
theorem c9_counterexample :
    ((MemoryGraph.init 0.15).simulateTimePassage (-1)).getCurrentDay = -1 ∧
    ¬((MemoryGraph.init 0.15).getCurrentDay
        ≤ ((MemoryGraph.init 0.15).simulateTimePassage (-1)).getCurrentDay) := by
  constructor
  · show (0 : ℤ) + (-1) = -1
    decide
  · show ¬((0 : ℤ) ≤ 0 + (-1))
    decide

/-- C9 amended: no public operation other than `simulateTimePassage` ever
changes `current_day`, and `simulateTimePassage(days)` adds exactly `days`,
so the counter never decreases provided `days ≥ 0` (negative days are
accepted unvalidated and do decrease it). -/
theorem c9_amended_day_monotone (g : MemoryGraph) (days : ℤ)
    (hd : 0 ≤ days) :
    (g.simulateTimePassage days).getCurrentDay = g.getCurrentDay + days ∧
    g.getCurrentDay ≤ (g.simulateTimePassage days).getCurrentDay ∧
    (∀ n id cat w pr,
      (g.insertConcept n id cat w pr).getCurrentDay = g.getCurrentDay) ∧
    g.updateMemoryStrengths.getCurrentDay = g.getCurrentDay ∧
    (∀ r, (g.setDecayRate r).getCurrentDay = g.getCurrentDay) ∧
    (∀ id b g', g.reviseConcept id b = Except.ok g' →
      g'.getCurrentDay = g.getCurrentDay) := by
  refine ⟨rfl, ?_, fun n id cat w pr => rfl, rfl, fun r => rfl, ?_⟩
  · show g.current_day ≤ g.current_day + days
    omega
  · intro id b g' h
    unfold MemoryGraph.reviseConcept at h
    cases hg : assocGet g.concepts id with
    | none =>
      rw [hg] at h
      exact absurd h (by simp)
    | some c0 =>
      rw [hg] at h
      simp only [Except.ok.injEq] at h
      subst h
      rfl

/-- Witness for C9 amended: one day on the fresh graph. -/
theorem c9_witness :
    (0 : ℤ) ≤ 1 ∧
    ((MemoryGraph.init 0.15).simulateTimePassage 1).getCurrentDay
      = (MemoryGraph.init 0.15).getCurrentDay + 1 :=
  ⟨by decide, (c9_amended_day_monotone (MemoryGraph.init 0.15) 1
    (by decide)).1⟩

/-- C10 (implicit): after every public `MinHeap` operation — `insert`,
`extractMin`, `updateKey`, `rebuild` — the backing array satisfies the
min-heap property: for every index `i > 0` the strength at `(i-1)/2` is at
most the strength at `i`. -/
theorem c10_minheap_property :
    (∀ (h : MinHeap) (k : String) (s : ℝ), IsMinHeap h.heap →
      IsMinHeap (h.insert k s).heap) ∧
    (∀ (h : MinHeap) (x : String) (h' : MinHeap), IsMinHeap h.heap →
      h.extractMin = Except.ok (x, h') → IsMinHeap h'.heap) ∧
    (∀ (h : MinHeap) (k : String) (s : ℝ), IsMinHeap h.heap →
      IsMinHeap (h.updateKey k s).heap) ∧
    (∀ data, IsMinHeap (MinHeap.rebuild data).heap) :=
  ⟨fun h k s hh => insert_isMinHeap h hh k s,
   fun h x h' hh he => extractMin_isMinHeap h hh x h' he,
   fun h k s hh => updateKey_isMinHeap h hh k s,
   rebuild_isMinHeap⟩

/-- Witness for C10 on a concrete singleton heap. -/
theorem c10_witness :
    IsMinHeap (MinHeap.mk [HeapNode.mk "a" 1]).heap ∧
    IsMinHeap ((MinHeap.mk [HeapNode.mk "a" 1]).insert "b" 2).heap ∧
    IsMinHeap ((MinHeap.mk [HeapNode.mk "a" 1]).updateKey "a" 2).heap ∧
    IsMinHeap (MinHeap.rebuild [("a", 1)]).heap ∧
    (MinHeap.mk [HeapNode.mk "a" 1]).extractMin
      = Except.ok ("a", MinHeap.mk []) ∧
    IsMinHeap (MinHeap.mk ([] : List HeapNode)).heap := by
  have hsing : IsMinHeap (MinHeap.mk [HeapNode.mk "a" 1]).heap := by
    intro j hj0 hjlen
    simp at hjlen
    omega
  have hext : (MinHeap.mk [HeapNode.mk "a" 1]).extractMin
      = Except.ok ("a", MinHeap.mk []) := rfl
  exact ⟨hsing, c10_minheap_property.1 _ "b" 2 hsing,
    c10_minheap_property.2.2.1 _ "a" 2 hsing,
    c10_minheap_property.2.2.2 [("a", 1)], hext,
    c10_minheap_property.2.1 _ "a" _ hsing hext⟩

/-- The duplicate-id insertion history breaking the size invariant. -/
noncomputable def dupG : MemoryGraph :=
  ((MemoryGraph.init 0.15).insertConcept "A" "a" "C" 0.5 []).insertConcept
    "A" "a" "C" 0.5 []

/-- C2 counterexample: after inserting the same id twice, the concept map
holds one entry but the priority structure holds two — `insertConcept`
overwrites the map entry yet unconditionally pushes a fresh heap entry. -/
theorem c2_counterexample :
    Reachable dupG ∧
    dupG.priority_queue.heap.length = 2 ∧
    dupG.concepts.length = 1 ∧
    dupG.priority_queue.heap.length ≠ dupG.concepts.length := by
  have hr : Reachable dupG :=
    Reachable.insert _ _ _ _ _ _
      (Reachable.insert _ _ _ _ _ _ (Reachable.init 0.15))
  have hpq : dupG.priority_queue.heap.length = 2 := by
    show ((((MemoryGraph.init 0.15).insertConcept "A" "a" "C" 0.5
      []).priority_queue).insert "a" 0.5).heap.length = 2
    rw [length_insert]
    show (((MemoryGraph.init 0.15).priority_queue).insert "a"
      0.5).heap.length + 1 = 2
    rw [length_insert]
    rfl
  have hc : dupG.concepts.length = 1 := rfl
  exact ⟨hr, hpq, hc, by rw [hpq, hc]; decide⟩

/-- C2 amended: the size invariant holds after every public operation except
`insertConcept` with an already-present id: a fresh-id insert preserves it,
`updateMemoryStrengths` and `simulateTimePassage` re-establish it
unconditionally, `setDecayRate` and `reviseConcept` preserve it — but a
duplicate-id insert grows the priority structure by one while the concept
count is unchanged. -/
theorem c2_amended_sizes (g : MemoryGraph)
    (hs : g.priority_queue.heap.length = g.concepts.length) :
    (∀ n id cat w pr, assocGet g.concepts id = none →
      (g.insertConcept n id cat w pr).priority_queue.heap.length
        = (g.insertConcept n id cat w pr).concepts.length) ∧
    (∀ n id cat w pr c, assocGet g.concepts id = some c →
      (g.insertConcept n id cat w pr).priority_queue.heap.length
        = (g.insertConcept n id cat w pr).concepts.length + 1) ∧
    g.updateMemoryStrengths.priority_queue.heap.length
      = g.updateMemoryStrengths.concepts.length ∧
    (∀ d, (g.simulateTimePassage d).priority_queue.heap.length
      = (g.simulateTimePassage d).concepts.length) ∧
    (∀ r, (g.setDecayRate r).priority_queue.heap.length
      = (g.setDecayRate r).concepts.length) ∧
    (∀ id b g', g.reviseConcept id b = Except.ok g' →
      g'.priority_queue.heap.length = g'.concepts.length) := by
  have hupd : ∀ g0 : MemoryGraph,
      g0.updateMemoryStrengths.priority_queue.heap.length
        = g0.updateMemoryStrengths.concepts.length := by
    intro g0
    show (MinHeap.rebuild _).heap.length = (g0.concepts.map _).length
    rw [length_rebuild]
    simp
  refine ⟨?_, ?_, hupd g, fun d => hupd _, fun r => hs, ?_⟩
  · intro n id cat w pr hfresh
    show ((g.priority_queue).insert id w).heap.length
      = (assocSet g.concepts id
          (Concept.make n id cat w g.current_day pr)).length
    rw [length_insert, assocSet_keys_absent _ _ _ hfresh]
    simp [hs]
  · intro n id cat w pr c hdup
    show ((g.priority_queue).insert id w).heap.length
      = (assocSet g.concepts id
          (Concept.make n id cat w g.current_day pr)).length + 1
    rw [length_insert, length_assocSet_present _ _ c _ hdup, hs]
  · intro id b g' h
    unfold MemoryGraph.reviseConcept at h
    cases hg : assocGet g.concepts id with
    | none =>
      rw [hg] at h
      exact absurd h (by simp)
    | some c0 =>
      rw [hg] at h
      simp only [Except.ok.injEq] at h
      subst h
      dsimp only
      obtain ⟨h1, h2⟩ := foldBoost_lengths (c0.revise g.current_day b) id
        ((assocSet g.concepts id (c0.revise g.current_day b)).map Prod.fst)
        (assocSet g.concepts id (c0.revise g.current_day b))
        (g.priority_queue.updateKey id
          (c0.revise g.current_day b).memory_strength)
      rw [h1, h2, length_updateKey, length_assocSet_present _ _ c0 _ hg, hs]

/-- Witness for C2 amended on the fresh empty graph. -/
theorem c2_witness :
    (MemoryGraph.init 0.15).priority_queue.heap.length
      = (MemoryGraph.init 0.15).concepts.length ∧
    (MemoryGraph.init 0.15).updateMemoryStrengths.priority_queue.heap.length
      = (MemoryGraph.init 0.15).updateMemoryStrengths.concepts.length :=
  ⟨rfl, (c2_amended_sizes (MemoryGraph.init 0.15) rfl).2.2.1⟩

/-- A two-concept well-formed graph: "a" lists "b" as a prerequisite and "b"
lists nothing. -/
noncomputable def twoG : MemoryGraph :=
  ⟨[("b", Concept.make "B" "b" "X" 0.2 0 []),
    ("a", Concept.make "A" "a" "X" 0.3 0 ["b"])],
   [("b", []), ("a", ["b"])],
   ⟨[HeapNode.mk "b" 0.2, HeapNode.mk "a" 0.3]⟩, 0, 0.15, 0⟩

/-- The graph after revising "b" in `twoG`. -/
noncomputable def twoG2 : MemoryGraph :=
  match twoG.reviseConcept "b" 0.4 with
  | Except.ok g => g
  | Except.error _ => twoG

theorem twoG_wf : WellFormed twoG := by
  refine ⟨?_, ?_, ?_, ?_⟩
  · intro p hp
    rcases List.mem_cons.mp hp with rfl | hp
    · rfl
    · rcases List.mem_cons.mp hp with rfl | hp
      · rfl
      · simp at hp
  · decide
  · intro j hj0 hjlen
    have hj : j = 1 := by
      have : twoG.priority_queue.heap.length = 2 := rfl
      omega
    subst hj
    show (0.2 : ℝ) ≤ 0.3
    norm_num
  · have h : hPairs twoG.priority_queue.heap = cPairs twoG.concepts := rfl
    rw [h]

theorem twoG2_ok : twoG.reviseConcept "b" 0.4 = Except.ok twoG2 := rfl

/-- C3: for a present id, `reviseConcept` boosts exactly those other
concepts connected to the target by a prerequisite edge in either direction
(the target lists them, or they list the target): each such neighbour's
`memory_strength` increases by exactly 0.1 capped at 1.0, its
`initial_weight` is reset to that new strength, its `last_revised_day` is
untouched (the record updates no other field), and its priority-structure
entry carries the new strength; concepts not so connected are unchanged.
Stated over well-formed graph states. -/
theorem c3_neighbor_boost (g : MemoryGraph) (hwf : WellFormed g)
    (id : String) (b : ℝ) (g' : MemoryGraph)
    (hok : g.reviseConcept id b = Except.ok g')
    (c0 : Concept) (h0 : assocGet g.concepts id = some c0)
    (k : String) (hk : k ≠ id) (c : Concept)
    (hc : assocGet g.concepts k = some c) :
    ((id ∈ c.prerequisites ∨ k ∈ c0.prerequisites) →
      assocGet g'.concepts k = some
        { c with
          memory_strength := min 1.0 (c.memory_strength + 0.1),
          initial_weight := min 1.0 (c.memory_strength + 0.1) } ∧
      (k, min 1.0 (c.memory_strength + 0.1))
        ∈ hPairs g'.priority_queue.heap) ∧
    (¬(id ∈ c.prerequisites ∨ k ∈ c0.prerequisites) →
      assocGet g'.concepts k = some c) := by
  have hget := reviseConcept_get hwf hok c0 h0 k hk c hc
  constructor
  · intro hconn
    rw [if_pos hconn] at hget
    refine ⟨hget, ?_⟩
    obtain ⟨-, -, -, hperm'⟩ := wf_reviseConcept hwf hok
    apply hperm'.mem_iff.mpr
    exact List.mem_map.mpr ⟨(k, _), mem_of_assocGet _ _ _ hget, rfl⟩
  · intro hconn
    rw [if_neg hconn] at hget
    exact hget

/-- Witness for C3: revising "b" in `twoG` boosts the connected "a" from
strength 0.3 to `min 1.0 (0.3 + 0.1)`. -/
theorem c3_witness :
    WellFormed twoG ∧
    twoG.reviseConcept "b" 0.4 = Except.ok twoG2 ∧
    ("a" : String) ≠ "b" ∧
    ("b" ∈ (Concept.make "A" "a" "X" 0.3 0 ["b"]).prerequisites ∨
      "a" ∈ (Concept.make "B" "b" "X" 0.2 0 []).prerequisites) ∧
    assocGet twoG2.concepts "a" = some
      { Concept.make "A" "a" "X" 0.3 0 ["b"] with
        memory_strength := min 1.0
          ((Concept.make "A" "a" "X" 0.3 0 ["b"]).memory_strength + 0.1),
        initial_weight := min 1.0
          ((Concept.make "A" "a" "X" 0.3 0 ["b"]).memory_strength + 0.1) } := by
  have hconn : ("b" ∈ (Concept.make "A" "a" "X" 0.3 0 ["b"]).prerequisites ∨
      "a" ∈ (Concept.make "B" "b" "X" 0.2 0 []).prerequisites) :=
    Or.inl (List.mem_cons_self _ _)
  exact ⟨twoG_wf, twoG2_ok, by decide, hconn,
    ((c3_neighbor_boost twoG twoG_wf "b" 0.4 twoG2 twoG2_ok
      (Concept.make "B" "b" "X" 0.2 0 []) rfl "a" (by decide)
      (Concept.make "A" "a" "X" 0.3 0 ["b"]) rfl).1 hconn).1⟩

/-- C4 counterexample: in `twoG`, "a" lists "b" and "b" does not list "a",
yet revising "b" changes "a": its strength moves from 0.3 to
`min 1.0 (0.3 + 0.1) = 0.4` because the connection check is bidirectional. -/
theorem c4_counterexample :
    twoG.reviseConcept "b" 0.4 = Except.ok twoG2 ∧
    "b" ∈ (Concept.make "A" "a" "X" 0.3 0 ["b"]).prerequisites ∧
    ("a" ∉ (Concept.make "B" "b" "X" 0.2 0 []).prerequisites) ∧
    (assocGet twoG.concepts "a").map Concept.memory_strength = some 0.3 ∧
    (assocGet twoG2.concepts "a").map Concept.memory_strength
      = some (min 1.0 (0.3 + 0.1)) ∧
    min 1.0 ((0.3 : ℝ) + 0.1) ≠ 0.3 := by
  have hget := reviseConcept_get twoG_wf twoG2_ok
    (Concept.make "B" "b" "X" 0.2 0 []) rfl "a" (by decide)
    (Concept.make "A" "a" "X" 0.3 0 ["b"]) rfl
  have hconn2 : "b" ∈ (Concept.make "A" "a" "X" 0.3 0 ["b"]).prerequisites :=
    List.mem_cons_self _ _
  rw [if_pos (Or.inl hconn2)] at hget
  refine ⟨twoG2_ok, hconn2, by decide, rfl, ?_, by norm_num⟩
  rw [hget]
  rfl

/-- C4 amended: because the connection check of `reviseConcept` is
bidirectional, when A lists B as a prerequisite (whether or not B lists A),
revising B does change A: its strength becomes `min 1.0 (strength + 0.1)`,
its `initial_weight` is reset to that value, and its `last_revised_day` is
unchanged. A is unchanged only when neither concept lists the other. -/
theorem c4_amended_bidirectional (g : MemoryGraph) (hwf : WellFormed g)
    (A B : String) (hAB : A ≠ B) (cA cB : Concept)
    (hA : assocGet g.concepts A = some cA)
    (hB : assocGet g.concepts B = some cB) (b : ℝ) (g' : MemoryGraph)
    (hok : g.reviseConcept B b = Except.ok g')
    (hlists : B ∈ cA.prerequisites) :
    assocGet g'.concepts A = some
      { cA with
        memory_strength := min 1.0 (cA.memory_strength + 0.1),
        initial_weight := min 1.0 (cA.memory_strength + 0.1) } ∧
    (∀ cA', assocGet g'.concepts A = some cA' →
      cA'.last_revised_day = cA.last_revised_day) := by
  have hget := reviseConcept_get hwf hok cB hB A hAB cA hA
  rw [if_pos (Or.inl hlists)] at hget
  refine ⟨hget, ?_⟩
  intro cA' h'
  rw [hget] at h'
  injection h' with h''
  rw [← h'']

/-- Witness for C4 amended at `twoG`. -/
theorem c4_witness :
    WellFormed twoG ∧ ("a" : String) ≠ "b" ∧
    "b" ∈ (Concept.make "A" "a" "X" 0.3 0 ["b"]).prerequisites ∧
    assocGet twoG2.concepts "a" = some
      { Concept.make "A" "a" "X" 0.3 0 ["b"] with
        memory_strength := min 1.0
          ((Concept.make "A" "a" "X" 0.3 0 ["b"]).memory_strength + 0.1),
        initial_weight := min 1.0
          ((Concept.make "A" "a" "X" 0.3 0 ["b"]).memory_strength + 0.1) } :=
  ⟨twoG_wf, by decide, List.mem_cons_self _ _,
    (c4_amended_bidirectional twoG twoG_wf "a" "b" (by decide)
      (Concept.make "A" "a" "X" 0.3 0 ["b"])
      (Concept.make "B" "b" "X" 0.2 0 []) rfl rfl 0.4 twoG2 twoG2_ok
      (List.mem_cons_self _ _)).1⟩

/-- The C6 counterexample state: "b" inserted twice (0.1 then 0.9), then "a"
at 0.5.  The stale heap entry (b, 0.1) stays at the root. -/
noncomputable def dup3G : MemoryGraph :=
  (((MemoryGraph.init 0.15).insertConcept "B" "b" "X" 0.1
    []).insertConcept "B" "b" "X" 0.9 []).insertConcept "A" "a" "X" 0.5 []

/-- C6 counterexample: in the reachable state `dup3G` the recommendation is
"b", whose stored strength 0.9 is **not** ≤ the strength 0.5 of "a" — the
claim fails on states reached through duplicate-id insertions. -/
theorem c6_counterexample :
    Reachable dup3G ∧
    dup3G.getNextRevisionRecommendation = "b" ∧
    (assocGet dup3G.concepts "b").map Concept.memory_strength = some 0.9 ∧
    (assocGet dup3G.concepts "a").map Concept.memory_strength = some 0.5 ∧
    ¬((0.9 : ℝ) ≤ 0.5) := by
  have hr : Reachable dup3G :=
    Reachable.insert _ _ _ _ _ _ (Reachable.insert _ _ _ _ _ _
      (Reachable.insert _ _ _ _ _ _ (Reachable.init 0.15)))
  have h1 : (((MemoryGraph.init 0.15).insertConcept "B" "b" "X" 0.1
      []).priority_queue).heap = [HeapNode.mk "b" 0.1] := by
    show heapifyUp [HeapNode.mk "b" 0.1] 0 = [HeapNode.mk "b" 0.1]
    exact heapifyUp_zero _
  have h2 : ((((MemoryGraph.init 0.15).insertConcept "B" "b" "X" 0.1
      []).insertConcept "B" "b" "X" 0.9 []).priority_queue).heap
      = [HeapNode.mk "b" 0.1, HeapNode.mk "b" 0.9] := by
    show (((((MemoryGraph.init 0.15).insertConcept "B" "b" "X" 0.1
      []).priority_queue)).insert "b" 0.9).heap = _
    unfold MinHeap.insert
    rw [h1]
    show heapifyUp [HeapNode.mk "b" 0.1, HeapNode.mk "b" 0.9] 1 = _
    exact heapifyUp_no_swap _ 0 (by
      show ¬((0.1 : ℝ) > 0.9)
      norm_num)
  have h3 : dup3G.priority_queue.heap
      = [HeapNode.mk "b" 0.1, HeapNode.mk "b" 0.9, HeapNode.mk "a" 0.5] := by
    show ((((((MemoryGraph.init 0.15).insertConcept "B" "b" "X" 0.1
      []).insertConcept "B" "b" "X" 0.9 []).priority_queue)).insert
        "a" 0.5).heap = _
    unfold MinHeap.insert
    rw [h2]
    show heapifyUp [HeapNode.mk "b" 0.1, HeapNode.mk "b" 0.9,
      HeapNode.mk "a" 0.5] 2 = _
    exact heapifyUp_no_swap _ 1 (by
      show ¬((0.1 : ℝ) > 0.5)
      norm_num)
  have hnext : dup3G.getNextRevisionRecommendation = "b" := by
    unfold MemoryGraph.getNextRevisionRecommendation MinHeap.isEmpty
      MinHeap.peekMin
    rw [h3]
    rfl
  exact ⟨hr, hnext, rfl, rfl, by norm_num⟩

/-- C6 amended: in every reachable state whose history never inserted an
already-present id, `getNextRevisionRecommendation` returns the empty result
exactly on the empty graph (and never fails), and otherwise an id present in
the map whose memory strength is ≤ that of every concept (any minimal id on
ties).  After a duplicate-id insertion the stale heap entry can surface and
the bound can fail (see the counterexample). -/
theorem c6_amended_recommendation (g : MemoryGraph)
    (hreach : ReachableFresh g) :
    (g.concepts = [] → g.getNextRevisionRecommendation = "") ∧
    (g.concepts ≠ [] →
      ∃ c, assocGet g.concepts g.getNextRevisionRecommendation = some c ∧
        ∀ p ∈ g.concepts, c.memory_strength ≤ p.2.memory_strength) :=
  getNext_spec_of_wf (wf_of_reachableFresh hreach)

/-- A duplicate-free two-concept history for the C6 witness. -/
noncomputable def freshG : MemoryGraph :=
  ((MemoryGraph.init 0.15).insertConcept "N" "n" "X" 0.5
    []).insertConcept "M" "m" "X" 0.7 []

/-- Witness for C6 amended: in `freshG` the recommended concept's strength
is at most 0.5, the strength of "n". -/
theorem c6_witness :
    ReachableFresh freshG ∧ freshG.concepts ≠ [] ∧
    ((assocGet freshG.concepts
      freshG.getNextRevisionRecommendation).map
        Concept.memory_strength).getD 0 ≤ 0.5 := by
  have hreach : ReachableFresh freshG :=
    ReachableFresh.insert _ _ _ _ _ _
      (ReachableFresh.insert _ _ _ _ _ _ (ReachableFresh.init 0.15) rfl) rfl
  have hne : freshG.concepts ≠ [] := by
    have h : freshG.concepts = [("n", Concept.make "N" "n" "X" 0.5 0 []),
      ("m", Concept.make "M" "m" "X" 0.7 0 [])] := rfl
    rw [h]
    simp
  obtain ⟨c, hc, hmin⟩ := (c6_amended_recommendation freshG hreach).2 hne
  refine ⟨hreach, hne, ?_⟩
  rw [hc]
  show c.memory_strength ≤ 0.5
  exact hmin ("n", Concept.make "N" "n" "X" 0.5 0 [])
    (List.mem_cons_self _ _)

end MRLS
